import Mathlib

/-!
# Orbix client: request signing pipeline

A shallow embedding of the request construction and authentication pipeline of
the Orbix client (package `pkg/api`, with the older package `api` as a sibling):
the parameter canonicalizer `queryString`, the signer `Sign` / `Verify`, the
header builder `buildHeader` and `parseRequest`.

Conventions of the embedding.

* A Go `string` is a Lean `String`; `bytesOf` gives its bytes (UTF-8), which is
  what `[]byte(s)` and the byte-wise comparison of `slices.Sort` see.
* A byte is a `Nat` below 256, a 64-bit word a `Nat` reduced modulo `2^64`.
* A Go map is an association list with distinct keys. The order of the list is
  the order in which a `range` loop over the map visits the entries; Go leaves
  that order unspecified, so a statement about "the" map has to hold for every
  order of the list.
* A `strings.Builder` is the string written so far, passed along explicitly.
* Library routines the pipeline calls are embedded from their documented
  behaviour: `slices.Sort`, `fmt` verbs, `encoding/hex`, `crypto/hmac` and
  `crypto/sha512` (FIPS 180-4, RFC 2104), `net/http.Header`, `net/url.Values`.
  The formatter behind the verb `%.f` is an argument (`fmtFloat`) of the canonicalizer
  and of everything built on it; `formatFloat` is its embedding, from the bits of the
  float64. `json.Unmarshal` (`unmarshal`) stays a parameter.
* The same holds for what `setQueryParam` and the dispatcher call: `json.Marshal`
  (`marshal`), the `%v` text of a float64, a map or a `[]any` (`fmtOther`) and the
  calls into `net/http` (`HttpEnv`) are parameters; a response body is held as the
  text whose bytes the body stream yields.
-/

namespace Orbix

/-! ## Bytes of a string -/

/-- UTF-8 encoding of one code point, as bytes. -/
def utf8EncodeNat (c : Nat) : List Nat :=
  if c < 0x80 then [c]
  else if c < 0x800 then [0xC0 + c / 64, 0x80 + c % 64]
  else if c < 0x10000 then [0xE0 + c / 4096, 0x80 + c / 64 % 64, 0x80 + c % 64]
  else [0xF0 + c / 262144, 0x80 + c / 4096 % 64, 0x80 + c / 64 % 64, 0x80 + c % 64]

/-- Bytes of a Go string: the conversion `[]byte(s)`. -/
def bytesOf (s : String) : List Nat :=
  s.data.flatMap (fun c => utf8EncodeNat c.toNat)

/-! ## crypto/sha512 -/

/-- Rotate a 64-bit word right by `n` bits. -/
def rotr64 (n x : Nat) : Nat :=
  ((x >>> n) ||| (x <<< (64 - n))) % 2 ^ 64

/-- Whether `n` is a prime number, by trial division. -/
def isPrime (n : Nat) : Bool :=
  2 ≤ n && (List.range n).all (fun d => d < 2 || n % d != 0)

/-- Integer part of the `k`-th root of `n`, for a root below `2 ^ bits`: the bits of the
root are fixed from the highest down. -/
def iroot (k bits n : Nat) : Nat :=
  (List.range bits).reverse.foldl (fun r b => if (r + 2 ^ b) ^ k ≤ n then r + 2 ^ b else r) 0

/-- Round constants of SHA-512: the first 64 bits of the fractional parts of the cube
roots of the first eighty primes (2 up to 409). -/
def sha512K : List Nat :=
  ((List.range 410).filter isPrime).map (fun p => iroot 3 68 (p * 2 ^ 192) % 2 ^ 64)

/-- Working state of SHA-512: eight 64-bit words. -/
structure Sha512State where
  a : Nat
  b : Nat
  c : Nat
  d : Nat
  e : Nat
  f : Nat
  g : Nat
  h : Nat
deriving DecidableEq, Repr

/-- Initial hash value of SHA-512. -/
def sha512Init : Sha512State :=
  { a := 0x6a09e667f3bcc908, b := 0xbb67ae8584caa73b, c := 0x3c6ef372fe94f82b,
    d := 0xa54ff53a5f1d36f1, e := 0x510e527fade682d1, f := 0x9b05688c2b3e6c1f,
    g := 0x1f83d9abfb41bd6b, h := 0x5be0cd19137e2179 }

/-- Padding of a message: a one bit, zeros up to 112 modulo 128 bytes, then the
bit length as a 128-bit big-endian number. -/
def sha512Pad (msg : List Nat) : List Nat :=
  msg ++ [0x80] ++ List.replicate ((239 - msg.length % 128) % 128) 0
    ++ (List.range 16).map (fun i => (8 * msg.length) / 256 ^ (15 - i) % 256)

/-- Split a list into consecutive pieces of `n` elements (`fuel` bounds the number of pieces). -/
def chunksOf (n : Nat) : Nat → List Nat → List (List Nat)
  | 0, _ => []
  | fuel + 1, l => if l.isEmpty then [] else l.take n :: chunksOf n fuel (l.drop n)

/-- Big-endian value of a list of bytes. -/
def beWord (bs : List Nat) : Nat :=
  bs.foldl (fun acc b => acc * 256 + b) 0

/-- Extend the message schedule by `n` more words. -/
def sha512Schedule : Nat → List Nat → List Nat
  | 0, w => w
  | n + 1, w =>
    let t := w.length
    let w2 := w.getD (t - 2) 0
    let w15 := w.getD (t - 15) 0
    let s0 := rotr64 1 w15 ^^^ rotr64 8 w15 ^^^ (w15 >>> 7)
    let s1 := rotr64 19 w2 ^^^ rotr64 61 w2 ^^^ (w2 >>> 6)
    sha512Schedule n (w ++ [(s1 + w.getD (t - 7) 0 + s0 + w.getD (t - 16) 0) % 2 ^ 64])

/-- One round of the compression function, with round constant `k` and schedule word `w`. -/
def sha512Round (s : Sha512State) (kw : Nat × Nat) : Sha512State :=
  let ch := (s.e &&& s.f) ^^^ ((s.e ^^^ (2 ^ 64 - 1)) &&& s.g)
  let maj := (s.a &&& s.b) ^^^ (s.a &&& s.c) ^^^ (s.b &&& s.c)
  let sig0 := rotr64 28 s.a ^^^ rotr64 34 s.a ^^^ rotr64 39 s.a
  let sig1 := rotr64 14 s.e ^^^ rotr64 18 s.e ^^^ rotr64 41 s.e
  let t1 := (s.h + sig1 + ch + kw.1 + kw.2) % 2 ^ 64
  let t2 := (sig0 + maj) % 2 ^ 64
  { a := (t1 + t2) % 2 ^ 64, b := s.a, c := s.b, d := s.c,
    e := (s.d + t1) % 2 ^ 64, f := s.e, g := s.f, h := s.g }

/-- Compression of one 128-byte block into the state. -/
def sha512Block (s : Sha512State) (block : List Nat) : Sha512State :=
  let w := sha512Schedule 64 ((chunksOf 8 16 block).map beWord)
  let r := (sha512K.zip w).foldl sha512Round s
  { a := (s.a + r.a) % 2 ^ 64, b := (s.b + r.b) % 2 ^ 64, c := (s.c + r.c) % 2 ^ 64,
    d := (s.d + r.d) % 2 ^ 64, e := (s.e + r.e) % 2 ^ 64, f := (s.f + r.f) % 2 ^ 64,
    g := (s.g + r.g) % 2 ^ 64, h := (s.h + r.h) % 2 ^ 64 }

/-- Eight bytes of a 64-bit word, most significant first. -/
def wordBytes (w : Nat) : List Nat :=
  [w / 2 ^ 56 % 256, w / 2 ^ 48 % 256, w / 2 ^ 40 % 256, w / 2 ^ 32 % 256,
   w / 2 ^ 24 % 256, w / 2 ^ 16 % 256, w / 2 ^ 8 % 256, w % 256]

/-- SHA-512 digest of a message: 64 bytes. -/
def sha512 (msg : List Nat) : List Nat :=
  let padded := sha512Pad msg
  let s := (chunksOf 128 padded.length padded).foldl sha512Block sha512Init
  wordBytes s.a ++ wordBytes s.b ++ wordBytes s.c ++ wordBytes s.d
    ++ wordBytes s.e ++ wordBytes s.f ++ wordBytes s.g ++ wordBytes s.h

/-! ## crypto/hmac -/

/-- State of `hmac.New(sha512.New, key)`: the outer pad and everything fed to the
inner hash so far (the inner pad followed by the bytes written). -/
structure HMAC where
  opad : List Nat
  inner : List Nat
deriving DecidableEq, Repr

/-- The key as HMAC uses it: hashed when longer than the 128-byte block, then
filled with zero bytes up to the block size. -/
def hmacBlockKey (key : List Nat) : List Nat :=
  let k := if key.length > 128 then sha512 key else key
  k ++ List.replicate (128 - k.length) 0

/-- The constructor `hmac.New(sha512.New, key)`. -/
def hmacNew (key : List Nat) : HMAC :=
  let k := hmacBlockKey key
  { opad := k.map (fun b => b ^^^ 0x5c), inner := k.map (fun b => b ^^^ 0x36) }

/-- The method `Write`: feeds bytes to the inner hash; returns the new state, the
number of bytes written and the error, which is never set. -/
def HMAC.Write (m : HMAC) (p : List Nat) : HMAC × Nat × Option String :=
  ({ m with inner := m.inner ++ p }, p.length, none)

/-- The method `Sum(b)`: appends the MAC to `b`. -/
def HMAC.Sum (m : HMAC) (b : List Nat) : List Nat :=
  b ++ sha512 (m.opad ++ sha512 m.inner)

/-- The comparison `hmac.Equal`: true exactly when both MACs are the same bytes. -/
def hmacEqual (mac1 mac2 : List Nat) : Bool :=
  decide (mac1 = mac2)

/-! ## encoding/hex -/

/-- Lowercase hexadecimal digit of a value below 16. -/
def hexDigit (n : Nat) : Char :=
  "0123456789abcdef".data.getD n '0'

/-- The function `hex.EncodeToString`: two lowercase digits per byte. -/
def hexEncodeToString (src : List Nat) : String :=
  String.mk (src.flatMap (fun b => [hexDigit (b % 256 / 16), hexDigit (b % 16)]))

/-! ## Parameter values -/

/-- A float64 value, by its IEEE 754 bit pattern. Its text under the verb `%.f` is
given by the argument `fmtFloat` of the functions below; `formatFloat` embeds that verb. -/
structure Float64 where
  bits : Nat
deriving DecidableEq, Repr

/-- A dynamic value (`any`) that is neither a `map[string]any` nor a `[]any`: what
the type switch of `appendKeyValue` sends to its default branch. The kinds listed are
those that reach the canonicalizer: strings, float64, booleans and nil from a decoded JSON
body, strings, integers and slices of them from the services and from
`convertURLValuesToParams`. -/
inductive Leaf where
  | str (s : String)
  | int (i : Int)
  | float (x : Float64)
  | bool (b : Bool)
  | null
  | strs (xs : List String)
  | ints (xs : List Int)
deriving DecidableEq, Repr

/-- A dynamic value (`any`) held by a parameter set. The entries of `map` are listed
in the order a `range` loop visits them. -/
inductive Value where
  | leaf (v : Leaf)
  | map (entries : List (String × Value))
  | seq (items : List Value)
deriving Repr

/-- A string value. -/
@[reducible] def Value.str (s : String) : Value := .leaf (.str s)

/-- An integer value. -/
@[reducible] def Value.int (i : Int) : Value := .leaf (.int i)

/-- The type `params` (`map[string]any`): entries in the order a `range` loop visits them. -/
abbrev params := List (String × Value)

/-- A map of the program is well formed when no key occurs twice. -/
def NodupKeys {β : Type} (m : List (String × β)) : Prop :=
  (m.map Prod.fst).Nodup

instance {β : Type} (m : List (String × β)) : Decidable (NodupKeys m) :=
  inferInstanceAs (Decidable (m.map Prod.fst).Nodup)

/-! ## The canonicalizer (`signature.go`) -/

/-- Byte-wise lexicographic order on strings, the order of `slices.Sort` on `[]string`. -/
def keyLE (a b : String) : Prop :=
  bytesOf a ≤ bytesOf b

instance : DecidableRel keyLE :=
  fun a b => inferInstanceAs (Decidable (bytesOf a ≤ bytesOf b))

/-- The call `slices.Sort(keys)`. -/
def sortKeys (keys : List String) : List String :=
  List.insertionSort keyLE keys

/-- Text of a leaf value as `writeKeyValue` prints it: the verb `%.f` for a float64,
the verb `%v` for everything else. -/
def leafText (fmtFloat : Float64 → String) : Leaf → String
  | .float x => fmtFloat x
  | .str s => s
  | .int i => toString i
  | .bool b => toString b
  | .null => "<nil>"
  | .strs xs => "[" ++ " ".intercalate xs ++ "]"
  | .ints xs => "[" ++ " ".intercalate (xs.map toString) ++ "]"

/-- The function `writeKeyValue`: writes `key=value` to the builder. -/
def writeKeyValue (fmtFloat : Float64 → String) (builder : String) (key : String)
    (value : Leaf) : String :=
  builder ++ (key ++ "=" ++ leafText fmtFloat value)

mutual
/-- The function `appendKeyValue`: appends a key-value pair to the builder, descending
into nested maps and arrays. -/
def appendKeyValue (fmtFloat : Float64 → String) (builder : String) (key : String) :
    Value → String
  | .map v => appendMapEntries fmtFloat builder key v
  | .seq v => appendSeqItems fmtFloat builder key 0 v
  | .leaf value => writeKeyValue fmtFloat builder key value
/-- The loop `for nestedKey, nestedValue := range v` of `appendKeyValue`. -/
def appendMapEntries (fmtFloat : Float64 → String) (builder : String) (key : String) :
    List (String × Value) → String
  | [] => builder
  | (nestedKey, nestedValue) :: rest =>
    appendMapEntries fmtFloat
      (appendKeyValue fmtFloat builder (key ++ "[" ++ nestedKey ++ "]") nestedValue) key rest
/-- The loop `for i, item := range v` of `appendKeyValue`. -/
def appendSeqItems (fmtFloat : Float64 → String) (builder : String) (key : String) (i : Nat) :
    List Value → String
  | [] => builder
  | item :: rest =>
    appendSeqItems fmtFloat
      (appendKeyValue fmtFloat builder (key ++ "[" ++ toString i ++ "]") item) key (i + 1) rest
end

/-- The map read `p[k]`: the value stored under `k`, the nil value when there is none. -/
def params.get (p : params) (k : String) : Value :=
  (p.lookup k).getD (.leaf .null)

/-- The loop `for i, k := range keys` of `queryString`; `n` is `len(keys)`. -/
def queryLoop (fmtFloat : Float64 → String) (p : params) (n : Nat) :
    Nat → List String → String → String
  | _, [], builder => builder
  | i, k :: rest, builder =>
    let v := p.get k
    let builder := appendKeyValue fmtFloat builder k v
    let builder := if i ≠ n - 1 then builder ++ "&" else builder
    queryLoop fmtFloat p n (i + 1) rest builder

/-- The function `queryString`: the canonical string of a parameter set. -/
def queryString (fmtFloat : Float64 → String) (p : params) : String :=
  let keys := sortKeys (p.map Prod.fst)
  queryLoop fmtFloat p keys.length 0 keys ""

/-! ## The signer (`signature.go`) -/

/-- The function `signPayload`: HMAC-SHA512 of the canonical string of `p`. -/
def signPayload (fmtFloat : Float64 → String) (secret : List Nat) (p : params) :
    Except String (List Nat) :=
  let qs := queryString fmtFloat p
  let mac := hmacNew secret
  match mac.Write (bytesOf qs) with
  | (_, _, some err) => .error ("failed to write query string to HMAC: " ++ err)
  | (mac, _, none) => .ok (mac.Sum [])

/-- The function `Sign`: the signature of `payload` under `secret`, hex encoded. -/
def Sign (fmtFloat : Float64 → String) (secret : String) (payload : params) :
    Except String String :=
  match signPayload fmtFloat (bytesOf secret) payload with
  | .error err => .error ("failed to sign payload: " ++ err)
  | .ok sig => .ok (hexEncodeToString sig)

/-- The function `Verify`: recomputes the MAC of `p` and compares it with `sig`. -/
def Verify (fmtFloat : Float64 → String) (secret : List Nat) (p : params) (sig : List Nat) :
    Bool :=
  match signPayload fmtFloat secret p with
  | .error _ => false
  | .ok calculatedSig => hmacEqual calculatedSig sig

/-! ## net/http.Header and net/url.Values -/

/-- Store `v` under `k`: the assignment `m[k] = v` on a map. -/
def mapSet {β : Type} (m : List (String × β)) (k : String) (v : β) : List (String × β) :=
  match m with
  | [] => [(k, v)]
  | (k', v') :: rest => if k' = k then (k, v) :: rest else (k', v') :: mapSet rest k v

/-- Bytes allowed in a header field name (the token characters of RFC 7230). -/
def validHeaderFieldByte (c : Char) : Bool :=
  c.isAlphanum || "!#$%&*+-.^_|~".data.contains c || c.toNat = 39 || c.toNat = 96

/-- Letter case of a canonical header key: upper case at the start and after a
hyphen, lower case elsewhere. -/
def canonicalCase : Bool → List Char → List Char
  | _, [] => []
  | upper, c :: rest =>
    let c := if upper then c.toUpper else c.toLower
    c :: canonicalCase (c = '-') rest

/-- The function `textproto.CanonicalMIMEHeaderKey`: a key that holds a byte outside
the token characters is returned unchanged. -/
def canonicalMIMEHeaderKey (s : String) : String :=
  if s.data.all validHeaderFieldByte then String.mk (canonicalCase true s.data) else s

/-- The type `http.Header` (`map[string][]string`). -/
abbrev Header := List (String × List String)

/-- The method `Header.Set`: replaces the values of the canonical key by `value`. -/
def Header.Set (h : Header) (key value : String) : Header :=
  mapSet h (canonicalMIMEHeaderKey key) [value]

/-- The method `Header.Add`: appends `value` to the values of the canonical key. -/
def Header.Add (h : Header) (key value : String) : Header :=
  let k := canonicalMIMEHeaderKey key
  mapSet h k ((h.lookup k).getD [] ++ [value])

/-- The method `Header.Values`: the values stored under the canonical key, if any. -/
def Header.Values (h : Header) (key : String) : Option (List String) :=
  h.lookup (canonicalMIMEHeaderKey key)

/-- The method `Header.Get`: the first value of the canonical key, or the empty string. -/
def Header.Get (h : Header) (key : String) : String :=
  match h.lookup (canonicalMIMEHeaderKey key) with
  | some (v :: _) => v
  | _ => ""

/-- The type `url.Values` (`map[string][]string`). -/
abbrev Values := List (String × List String)

/-- Upper-case hexadecimal digit of a value below 16. -/
def upperHexDigit (n : Nat) : Char :=
  "0123456789ABCDEF".data.getD n '0'

/-- Escaping of one byte by `url.QueryEscape`: letters, digits and `-_.~` stay, a space
becomes `+`, every other byte becomes `%XX`. -/
def queryEscapeByte (c : Nat) : List Char :=
  if (97 ≤ c ∧ c ≤ 122) ∨ (65 ≤ c ∧ c ≤ 90) ∨ (48 ≤ c ∧ c ≤ 57)
      ∨ c = 45 ∨ c = 95 ∨ c = 46 ∨ c = 126 then [Char.ofNat c]
  else if c = 32 then ['+']
  else ['%', upperHexDigit (c / 16), upperHexDigit (c % 16)]

/-- The function `url.QueryEscape`. -/
def QueryEscape (s : String) : String :=
  String.mk ((bytesOf s).flatMap queryEscapeByte)

/-- The inner loop of `Values.Encode`: one `key=value` pair per value of a key. -/
def encodeValues (keyEscaped : String) : List String → String → String
  | [], buf => buf
  | v :: vs, buf =>
    let buf := if buf ≠ "" then buf ++ "&" else buf
    encodeValues keyEscaped vs (buf ++ keyEscaped ++ "=" ++ QueryEscape v)

/-- The method `Values.Encode`: the URL-encoded form of the values, sorted by key. -/
def Values.Encode (v : Values) : String :=
  if v.length = 0 then ""
  else
    (sortKeys (v.map Prod.fst)).foldl
      (fun buf k => encodeValues (QueryEscape k) ((v.lookup k).getD []) buf) ""

/-! ## The request descriptor and the client (`request.go`, `client.go`) -/

/-- The type `secType`: whether a request needs authentication. -/
inductive secType where
  | secTypeNone
  | secTypeSigned
deriving DecidableEq, Repr

/-- Modelled from the spec: the request descriptor of package `pkg/api`, whose
declaration (`pkg/api/request.go`) is not among the sources. The fields are those of
the descriptor of package `api` (`api/request.go`) together with `bodyBuffer`, the raw
body bytes that `buildHeader` and the order services of `pkg/api` use. A nil map or
reader is `none`; a nil `bodyBuffer` is the empty list. -/
structure request where
  method : String
  endpoint : String
  fullURL : String
  secType : secType
  query : Option Values
  form : Option Values
  header : Option Header
  body : Option (List Nat)
  bodyBuffer : List Nat
deriving DecidableEq, Repr

/-- The method `ensureInitialized`: nil query and form maps become empty maps. -/
def request.ensureInitialized (r : request) : request :=
  let r := if r.query = none then { r with query := some [] } else r
  if r.form = none then { r with form := some [] } else r

/-- The type `RequestOption`: a function that changes the descriptor. -/
abbrev RequestOption := request → request

/-- The client: credentials, base URL and user agent (transport and logger left out). -/
structure Client where
  apiKey : String
  apiSecret : String
  BaseURL : String
  UserAgent : String
deriving DecidableEq, Repr

/-- The constant `http.MethodGet`. -/
def MethodGet : String := "GET"

/-- The constant `http.MethodPost`. -/
def MethodPost : String := "POST"

/-- The constant `http.MethodDelete`. -/
def MethodDelete : String := "DELETE"

/-- The method `Client.buildHeader` of `pkg/api`: returns the descriptor as the call
leaves it and the error, if any. `unmarshal` is `json.Unmarshal` into a `params`. -/
def buildHeader (fmtFloat : Float64 → String) (unmarshal : List Nat → Except String params)
    (c : Client) (r : request) : request × Option String :=
  let header : Header := []
  let first : Except String Header :=
    if r.secType = .secTypeSigned ∧ r.method = MethodGet then
      match Sign fmtFloat c.apiSecret [] with
      | .error err => .error ("error signing payload: " ++ err)
      | .ok signature =>
        .ok ((header.Set "Authorization" ("TDAX-API " ++ c.apiKey)).Set "Signature" signature)
    else .ok header
  match first with
  | .error err => (r, some err)
  | .ok header =>
    if r.secType = .secTypeSigned ∧ (r.method = MethodPost ∨ r.method = MethodDelete) then
      let header := header.Set "Content-Type" "application/json"
      let header := header.Set "Authorization" ("TDAX-API " ++ c.apiKey)
      match unmarshal r.bodyBuffer with
      | .error err => (r, some ("err building header: " ++ err))
      | .ok p =>
        let r := { r with body := some r.bodyBuffer }
        match Sign fmtFloat c.apiSecret p with
        | .error err => (r, some ("error signing payload: " ++ err))
        | .ok signature => ({ r with header := some (header.Set "Signature" signature) }, none)
    else ({ r with header := some header }, none)

/-- The method `Client.buildFullURL`: base URL, endpoint and, when the encoded query is
not empty, a question mark and the encoded query. -/
def buildFullURL (c : Client) (r : request) : request :=
  let sb := "" ++ c.BaseURL ++ r.endpoint
  let queryString := (r.query.getD []).Encode
  let sb := if queryString ≠ "" then sb ++ "?" ++ queryString else sb
  { r with fullURL := sb }

/-- The method `Client.parseRequest` of `pkg/api`: applies the options, initializes the
maps, builds the header and, when that succeeded, the full URL. -/
def parseRequest (fmtFloat : Float64 → String) (unmarshal : List Nat → Except String params)
    (c : Client) (r : request) (opts : List RequestOption) : request × Option String :=
  let r := opts.foldl (fun r opt => opt r) r
  let r := r.ensureInitialized
  match buildHeader fmtFloat unmarshal c r with
  | (r, some err) => (r, some err)
  | (r, none) => (buildFullURL c r, none)

/-! ## Vocabulary of the statements -/

/-- Text of a string or integer value: the string itself, the decimal digits of the integer. -/
def plainText : Value → String
  | .leaf (.str s) => s
  | .leaf (.int i) => toString i
  | _ => ""

/-- Whether a value is a string or an integer. -/
def isStringOrInt : Value → Bool
  | .leaf (.str _) => true
  | .leaf (.int _) => true
  | _ => false

/-- The nested value `k1: (k2: ... (kn: v))` below the first key: a chain of
single-entry mappings that ends in the string `v`. -/
def nestChain (ks : List String) (v : String) : Value :=
  ks.foldr (fun k inner => Value.map [(k, inner)]) (Value.str v)

/-- Value of a hexadecimal digit given as a byte, if it is one (the table of `encoding/hex`). -/
def fromHexChar (c : Nat) : Option Nat :=
  if 48 ≤ c ∧ c ≤ 57 then some (c - 48)
  else if 97 ≤ c ∧ c ≤ 102 then some (c - 87)
  else if 65 ≤ c ∧ c ≤ 70 then some (c - 55)
  else none

/-- The function `hex.Decode` on the bytes of the text: two digits per byte. -/
def hexDecode : List Nat → Except String (List Nat)
  | [] => .ok []
  | [p] =>
    if (fromHexChar p).isNone then .error "encoding/hex: invalid byte"
    else .error "encoding/hex: odd length hex string"
  | p :: q :: rest =>
    match fromHexChar p, fromHexChar q with
    | some a, some b =>
      match hexDecode rest with
      | .ok bs => .ok ((a * 16 + b) :: bs)
      | .error err => .error err
    | _, _ => .error "encoding/hex: invalid byte"

/-- The function `hex.DecodeString`. -/
def hexDecodeString (s : String) : Except String (List Nat) :=
  hexDecode (bytesOf s)

/-- The MAC of `msg` under `key` as `signPayload` computes it: `hmac.New`, one `Write`,
then `Sum(nil)`. -/
def hmacSHA512 (key msg : List Nat) : List Nat :=
  ((hmacNew key).Write msg).1.Sum []

/-- The header a signed GET request gets: `Authorization` and `Signature`. -/
def signedGetHeader (apiKey signature : String) : Header :=
  Header.Set (Header.Set [] "Authorization" ("TDAX-API " ++ apiKey)) "Signature" signature

/-- The header a signed POST or DELETE request gets. -/
def signedBodyHeader (apiKey signature : String) : Header :=
  Header.Set
    (Header.Set (Header.Set [] "Content-Type" "application/json") "Authorization"
      ("TDAX-API " ++ apiKey))
    "Signature" signature

/-- A header carries the authentication of client `c`: an `Authorization` value that
names the API key and a `Signature` of 128 characters (so not empty). -/
def carriesSignature (c : Client) (h : Option Header) : Prop :=
  ∃ hd, h = some hd ∧ hd.Get "Authorization" = "TDAX-API " ++ c.apiKey ∧
    hd.Get "Signature" ≠ "" ∧ (hd.Get "Signature").length = 128

/-- A client for the concrete cases below. -/
def exampleClient : Client :=
  { apiKey := "key", apiSecret := "s3cr3t", BaseURL := "https://satangcorp.com",
    UserAgent := "Bin64/1.0" }

/-- A signed request on `/api/orders/` with the given method and body bytes. -/
def exampleRequest (method : String) (bodyBuffer : List Nat) : request :=
  { method := method, endpoint := "/api/orders/", fullURL := "", secType := .secTypeSigned,
    query := none, form := none, header := none, body := none, bodyBuffer := bodyBuffer }

/-- A decoder for the concrete cases below: it knows the body of a cancel-order request
and refuses every other input. -/
def exampleUnmarshal (data : List Nat) : Except String params :=
  if data = bytesOf "\x7b\"pair\":\"usdt_thb\"\x7d" then .ok [("pair", Value.str "usdt_thb")]
  else .error "unexpected end of JSON input"

/-- The method `Values.Set`: the assignment `v[key] = []string{value}`. -/
def Values.Set (v : Values) (key value : String) : Values :=
  mapSet v key [value]

/-- The method `Values.Add`: appends `value` to the values stored under `key`. -/
def Values.Add (v : Values) (key value : String) : Values :=
  mapSet v key ((v.lookup key).getD [] ++ [value])

/-- Text of a value under the verb `%v` of `fmt.Sprintf`. The text of a float64, of a
map and of a `[]any` is not embedded: `fmtOther` gives it. -/
def sprintV (fmtOther : Value → String) : Value → String
  | .leaf (.str s) => s
  | .leaf (.int i) => toString i
  | .leaf (.bool b) => toString b
  | .leaf .null => "<nil>"
  | .leaf (.strs xs) => "[" ++ " ".intercalate xs ++ "]"
  | .leaf (.ints xs) => "[" ++ " ".intercalate (xs.map toString) ++ "]"
  | v => fmtOther v

/-- The method `setQueryParam` (`api/request.go`): a `[]string` or `[]int` adds one value
per element, a `[]any` is stored as its JSON text (`marshal` is `json.Marshal`), any other
value is stored as its `%v` text. Returns the descriptor and the error, if any. -/
def request.setQueryParam (fmtOther : Value → String)
    (marshal : List Value → Except String String) (r : request) (key : String)
    (value : Value) : request × Option String :=
  let query : Values := r.query.getD []
  match value with
  | .leaf (.strs v) =>
    ({ r with query := some (v.foldl (fun q item => Values.Add q key item) query) }, none)
  | .leaf (.ints v) =>
    ({ r with query := some (v.foldl (fun q item => Values.Add q key (toString item)) query) },
      none)
  | .seq v =>
    match marshal v with
    | .error err =>
      ({ r with query := some query },
        some ("error marshalling slice value for key \x27" ++ key ++ "\x27: " ++ err))
    | .ok jsonValue => ({ r with query := some (Values.Set query key jsonValue) }, none)
  | v => ({ r with query := some (Values.Set query key (sprintV fmtOther v)) }, none)

/-- The method `setQueryParams` (`api/request.go`): `setQueryParam` for every entry of
`m`, in the order the `range` loop visits them; errors are dropped. -/
def request.setQueryParams (fmtOther : Value → String)
    (marshal : List Value → Except String String) (r : request) (m : params) : request :=
  m.foldl (fun r kv => (r.setQueryParam fmtOther marshal kv.1 kv.2).1) r

/-- The option `WithHeader` (`api/request.go`): sets or adds a header value. -/
def WithHeader (key value : String) (replace : Bool) : RequestOption :=
  fun r =>
    let header : Header := r.header.getD []
    { r with header := some (if replace then header.Set key value else header.Add key value) }

/-- The option `WithHeaders` (`api/request.go`): replaces the header by a copy of `header`. -/
def WithHeaders (header : Option Header) : RequestOption :=
  fun r => { r with header := header }

namespace Legacy

/-- The method `Client.buildHeader` of package `api`: a header with the content type only. -/
def buildHeader (_c : Client) (r : request) : request :=
  { r with header := some (Header.Set [] "Content-Type" "application/json") }

/-- The method `Client.parseRequest` of package `api`: options, initialization, header,
full URL; it never fails. -/
def parseRequest (c : Client) (r : request) (opts : List RequestOption) :
    request × Option String :=
  let r := opts.foldl (fun r opt => opt r) r
  let r := r.ensureInitialized
  let r := buildHeader c r
  (buildFullURL c r, none)

end Legacy

/-! ## The dispatcher (`client.go`) -/

/-- A request as it is handed to the HTTP client. -/
structure HttpRequest where
  method : String
  url : String
  header : Option Header
  body : Option (List Nat)
deriving DecidableEq, Repr

/-- A response as the HTTP client hands it back: the status code, the outcome of reading
the body to its end (the text of the body, or the error of the read) and the error of
closing the body, if any. -/
structure HttpResponse where
  StatusCode : Int
  body : Except String String
  closeErr : Option String

/-- The part of `net/http` the dispatcher calls: the error of
`http.NewRequestWithContext` for a method and a URL, if any, and the call
`HttpClient.Do`. -/
structure HttpEnv where
  newRequestErr : String → String → Option String
  roundTrip : HttpRequest → Except String HttpResponse

/-- How a call of `callAPI` ends: it returns data and an error, or it panics. -/
inductive CallResult where
  | returned (data : Option (List Nat)) (err : Option String)
  | panicked
deriving DecidableEq, Repr

/-- The request `http.NewRequestWithContext` builds from the descriptor (an empty method
stands for GET), with the header of the descriptor. -/
def newHttpRequest (r : request) : HttpRequest :=
  { method := if r.method = "" then "GET" else r.method, url := r.fullURL,
    header := r.header, body := r.body }

/-- The end of `callAPI` once a response is there: read the body, turn a status of
400 or more into an error, and let the deferred `Close` replace the error when it fails. -/
def finishCall (res : HttpResponse) : CallResult :=
  let out : Option (List Nat) × Option String :=
    match res.body with
    | .error err => (none, some ("failed to read response body: " ++ err))
    | .ok text =>
      if res.StatusCode ≥ 400 then
        (none, some ("API request failed with status " ++ toString res.StatusCode ++ ": " ++ text))
      else (some (bytesOf text), none)
  match res.closeErr with
  | some cerr => .returned out.1 (some ("failed to close response body: " ++ cerr))
  | none => .returned out.1 out.2

/-- The method `Client.callAPI` of `pkg/api`: the result and the requests handed to the
HTTP client, in order. The header is stored into the new request before the error of
`http.NewRequestWithContext` is looked at, so that error ends in a nil dereference. -/
def callAPI (fmtFloat : Float64 → String) (unmarshal : List Nat → Except String params)
    (http : HttpEnv) (c : Client) (r : request) (opts : List RequestOption) :
    CallResult × List HttpRequest :=
  match parseRequest fmtFloat unmarshal c r opts with
  | (_, some err) => (.returned none (some ("failed to parse request: " ++ err)), [])
  | (r, none) =>
    match http.newRequestErr r.method r.fullURL with
    | some _ => (.panicked, [])
    | none =>
      let req := newHttpRequest r
      match http.roundTrip req with
      | .error err => (.returned none (some ("failed to execute request: " ++ err)), [req])
      | .ok res => (finishCall res, [req])

/-- The method `Client.callAPI` of package `api`: as in `pkg/api`, except that the error
of `http.NewRequestWithContext` is returned. -/
def Legacy.callAPI (http : HttpEnv) (c : Client) (r : request) (opts : List RequestOption) :
    CallResult × List HttpRequest :=
  match Legacy.parseRequest c r opts with
  | (_, some err) => (.returned none (some ("failed to parse request: " ++ err)), [])
  | (r, none) =>
    match http.newRequestErr r.method r.fullURL with
    | some err => (.returned none (some ("failed to create request: " ++ err)), [])
    | none =>
      let req := newHttpRequest r
      match http.roundTrip req with
      | .error err => (.returned none (some ("failed to execute request: " ++ err)), [req])
      | .ok res => (finishCall res, [req])

/-- An HTTP environment for the concrete cases below: every request is accepted and
answered with the given status and body text. -/
def exampleHttp (status : Int) (body : String) : HttpEnv :=
  { newRequestErr := fun _ _ => none,
    roundTrip := fun _ => .ok { StatusCode := status, body := .ok body, closeErr := none } }

/-- A public request for the order book depth, before its query parameters are set. -/
def depthRequest : request :=
  { method := "GET", endpoint := "/api/v3/depth", fullURL := "", secType := .secTypeNone,
    query := none, form := none, header := none, body := none, bodyBuffer := [] }

/-! ## Vocabulary of the statements on the URL -/

/-- The escaped pairs `key=value` that `Values.Encode` writes for the keys `ks`, in
that order: one pair for every value of a key. -/
def encodedPairs (v : Values) (ks : List String) : List String :=
  ks.flatMap (fun k =>
    ((v.lookup k).getD []).map (fun x => QueryEscape k ++ "=" ++ QueryEscape x))

/-- Whether a byte is one that `url.QueryEscape` leaves as it is: a letter, a digit or
one of `-_.~`. -/
def unreservedByte (n : Nat) : Bool :=
  decide ((97 ≤ n ∧ n ≤ 122) ∨ (65 ≤ n ∧ n ≤ 90) ∨ (48 ≤ n ∧ n ≤ 57)
    ∨ n = 45 ∨ n = 95 ∨ n = 46 ∨ n = 126)

/-- Whether a string consists of letters, digits and `-_.~` only. -/
def isUnreserved (s : String) : Bool :=
  s.data.all (fun c => unreservedByte c.toNat)

/-- Whether a value is an integer or a string of letters, digits and `-_.~`. -/
def isPlainScalar : Value → Bool
  | .leaf (.str s) => isUnreserved s
  | .leaf (.int _) => true
  | _ => false

/-- A client with the base URL `https://example.test`. -/
def testClient : Client :=
  { apiKey := "key", apiSecret := "s3cr3t", BaseURL := "https://example.test",
    UserAgent := "Bin64/1.0" }

/-- Whether the sign bit of a float64 is set. -/
def Float64.signBit (x : Float64) : Bool :=
  decide (x.bits / 2 ^ 63 % 2 = 1)

/-- The exponent field of a float64: eleven bits. -/
def Float64.biasedExp (x : Float64) : Nat :=
  x.bits / 2 ^ 52 % 2 ^ 11

/-- The fraction field of a float64: the low 52 bits. -/
def Float64.fraction (x : Float64) : Nat :=
  x.bits % 2 ^ 52

/-- Whether a float64 is finite: neither an infinity nor a NaN. -/
def Float64.isFinite (x : Float64) : Bool :=
  decide (x.biasedExp ≠ 2047)

/-- The significand of a finite float64 as an integer: the fraction, with the hidden
bit unless the value is subnormal. -/
def Float64.mant (x : Float64) : Nat :=
  if x.biasedExp = 0 then x.fraction else 2 ^ 52 + x.fraction

/-- The binary exponent of a finite float64, counted from `-1075`: the magnitude of the
value is `mant * 2 ^ (shift - 1075)`. -/
def Float64.shift (x : Float64) : Nat :=
  if x.biasedExp = 0 then 1 else x.biasedExp

/-- The magnitude (absolute value) of a finite float64, as a rational number. -/
def Float64.magnitude (x : Float64) : ℚ :=
  if 1075 ≤ x.shift then (x.mant : ℚ) * 2 ^ (x.shift - 1075)
  else (x.mant : ℚ) / 2 ^ (1075 - x.shift)

/-- The integer nearest to `m / 2 ^ k`; when `m / 2 ^ k` lies halfway between two
integers, the even one of the two. -/
def roundHalfEven (m k : Nat) : Nat :=
  let q := m / 2 ^ k
  let r := m % 2 ^ k
  if 2 ^ k < 2 * r ∨ (2 * r = 2 ^ k ∧ q % 2 = 1) then q + 1 else q

/-- The magnitude of a finite float64 rounded to an integer as `strconv` rounds the
exact decimal expansion to zero decimal places: to the nearest, ties to even. -/
def Float64.nearest (x : Float64) : Nat :=
  if 1075 ≤ x.shift then x.mant * 2 ^ (x.shift - 1075)
  else roundHalfEven x.mant (1075 - x.shift)

/-- The text of a float64 under the verb `%.f`, which is
`strconv.FormatFloat(x, f, 0, 64)`: `NaN`, `+Inf` or `-Inf` for the values that are not
finite; otherwise a minus sign when the sign bit is set (also for a negative zero and for
a negative value that rounds to zero) followed by the decimal digits of the rounded
magnitude. -/
def formatFloat (x : Float64) : String :=
  if x.biasedExp = 2047 then
    if x.fraction ≠ 0 then "NaN" else if x.signBit then "-Inf" else "+Inf"
  else
    (if x.signBit then "-" else "") ++ toString x.nearest

/-! ## Vocabulary of the statements on iteration order -/

mutual
/-- Whether a value leaves a `range` loop no choice of order: no mapping nested in it,
at any depth, has two or more entries. -/
def Value.orderFree : Value → Bool
  | .leaf _ => true
  | .map es => decide (es.length ≤ 1) && orderFreeEntries es
  | .seq xs => orderFreeItems xs
/-- Whether every value of the entries is free of a choice of order. -/
def orderFreeEntries : List (String × Value) → Bool
  | [] => true
  | (_, v) :: rest => v.orderFree && orderFreeEntries rest
/-- Whether every item is free of a choice of order. -/
def orderFreeItems : List Value → Bool
  | [] => true
  | v :: rest => v.orderFree && orderFreeItems rest
end

theorem foldl_append_eq (acc : String) (l : List String) :
    l.foldl (fun r s => r ++ s) acc = acc ++ l.foldl (fun r s => r ++ s) "" := by
  induction l generalizing acc with
  | nil => simp
  | cons a l ih =>
    simp only [List.foldl_cons]
    rw [ih (acc ++ a), ih ("" ++ a)]
    simp [String.append_assoc]

theorem join_cons (a : String) (l : List String) :
    String.join (a :: l) = a ++ String.join l := by
  simp only [String.join, List.foldl_cons]
  rw [foldl_append_eq]
  simp

theorem intercalate_go_eq (sep acc : String) (l : List String) :
    String.intercalate.go acc sep l = acc ++ String.intercalate.go "" sep l := by
  induction l generalizing acc with
  | nil => simp [String.intercalate.go]
  | cons a l ih =>
    simp only [String.intercalate.go]
    rw [ih (acc ++ sep ++ a), ih ("" ++ sep ++ a)]
    simp [String.append_assoc]

theorem intercalate_cons_cons (sep a b : String) (l : List String) :
    sep.intercalate (a :: b :: l) = a ++ sep ++ sep.intercalate (b :: l) := by
  simp only [String.intercalate, String.intercalate.go]
  rw [intercalate_go_eq sep (a ++ sep ++ b), intercalate_go_eq sep b]
  simp [String.append_assoc]

theorem intercalate_singleton (sep a : String) : sep.intercalate [a] = a := by
  simp [String.intercalate, String.intercalate.go]

mutual
theorem appendKeyValue_builder (fmtFloat : Float64 → String) :
    ∀ (v : Value) (builder key : String),
      appendKeyValue fmtFloat builder key v = builder ++ appendKeyValue fmtFloat "" key v
  | .leaf x, builder, key => by simp [appendKeyValue, writeKeyValue]
  | .map es, builder, key => by
    simp only [appendKeyValue]
    exact appendMapEntries_builder fmtFloat es builder key
  | .seq xs, builder, key => by
    simp only [appendKeyValue]
    exact appendSeqItems_builder fmtFloat xs builder key 0
theorem appendMapEntries_builder (fmtFloat : Float64 → String) :
    ∀ (es : List (String × Value)) (builder key : String),
      appendMapEntries fmtFloat builder key es
        = builder ++ appendMapEntries fmtFloat "" key es
  | [], builder, key => by simp [appendMapEntries]
  | (k, v) :: rest, builder, key => by
    simp only [appendMapEntries]
    rw [appendMapEntries_builder fmtFloat rest (appendKeyValue fmtFloat builder _ v),
      appendMapEntries_builder fmtFloat rest (appendKeyValue fmtFloat "" _ v),
      appendKeyValue_builder fmtFloat v builder]
    simp [String.append_assoc]
theorem appendSeqItems_builder (fmtFloat : Float64 → String) :
    ∀ (xs : List Value) (builder key : String) (i : Nat),
      appendSeqItems fmtFloat builder key i xs
        = builder ++ appendSeqItems fmtFloat "" key i xs
  | [], builder, key, i => by simp [appendSeqItems]
  | x :: rest, builder, key, i => by
    simp only [appendSeqItems]
    rw [appendSeqItems_builder fmtFloat rest (appendKeyValue fmtFloat builder _ x),
      appendSeqItems_builder fmtFloat rest (appendKeyValue fmtFloat "" _ x),
      appendKeyValue_builder fmtFloat x builder]
    simp [String.append_assoc]
end

theorem queryLoop_eq (fmtFloat : Float64 → String) (p : params) (n : Nat) :
    ∀ (ks : List String) (i : Nat) (builder : String), i + ks.length = n →
      queryLoop fmtFloat p n i ks builder
        = builder ++ "&".intercalate (ks.map (fun k => appendKeyValue fmtFloat "" k (p.get k)))
  | [], i, builder, _ => by simp [queryLoop, String.intercalate]
  | [k], i, builder, h => by
    have hi : i = n - 1 := by simp at h; omega
    simp only [queryLoop, List.map_cons, List.map_nil, intercalate_singleton]
    rw [appendKeyValue_builder]
    simp [hi]
  | k :: k2 :: rest, i, builder, h => by
    have hi : i ≠ n - 1 := by simp at h; omega
    have h2 : (i + 1) + (k2 :: rest).length = n := by simp at h ⊢; omega
    rw [queryLoop]
    simp only [hi, ne_eq, not_false_eq_true, if_true]
    rw [queryLoop_eq fmtFloat p n (k2 :: rest) (i + 1) _ h2, appendKeyValue_builder]
    simp only [List.map_cons]
    rw [intercalate_cons_cons]
    simp [String.append_assoc]

theorem queryString_eq (fmtFloat : Float64 → String) (p : params) :
    queryString fmtFloat p
      = "&".intercalate ((sortKeys (p.map Prod.fst)).map
          (fun k => appendKeyValue fmtFloat "" k (p.get k))) := by
  unfold queryString
  simp only
  rw [queryLoop_eq fmtFloat p _ _ 0 "" (by simp)]
  simp

theorem appendKeyValue_nestChain (fmtFloat : Float64 → String) (v : String) :
    ∀ (ks : List String) (key : String),
      appendKeyValue fmtFloat "" key (nestChain ks v)
        = key ++ String.join (ks.map (fun k => "[" ++ k ++ "]")) ++ "=" ++ v
  | [], key => by
    simp [nestChain, appendKeyValue, writeKeyValue, leafText, String.join, String.append_assoc]
  | k :: rest, key => by
    have ih := appendKeyValue_nestChain fmtFloat v rest (key ++ "[" ++ k ++ "]")
    simp only [nestChain, List.foldr_cons, appendKeyValue, appendMapEntries] at ih ⊢
    rw [ih, List.map_cons, join_cons]
    simp [String.append_assoc]

/-! ## Lemmas: key order, sorting and map reads -/

instance : IsTotal String keyLE := ⟨fun a b => le_total (bytesOf a) (bytesOf b)⟩

instance : IsTrans String keyLE := ⟨fun _ _ _ h1 h2 => le_trans (α := List Nat) h1 h2⟩

theorem sortKeys_sorted (keys : List String) : (sortKeys keys).Pairwise keyLE :=
  List.sorted_insertionSort keyLE keys

theorem sortKeys_perm (keys : List String) : (sortKeys keys).Perm keys :=
  List.perm_insertionSort keyLE keys

theorem utf8EncodeNat_append_inj (c d : Nat) (l1 l2 : List Nat)
    (h : utf8EncodeNat c ++ l1 = utf8EncodeNat d ++ l2) : c = d ∧ l1 = l2 := by
  unfold utf8EncodeNat at h
  split_ifs at h <;>
    simp only [List.cons_append, List.nil_append, List.cons.injEq] at h <;>
    first
      | (exfalso; omega)
      | exact ⟨by omega, by simp_all⟩

theorem bytesOf_chars_inj : ∀ (l1 l2 : List Char),
    l1.flatMap (fun c => utf8EncodeNat c.toNat) = l2.flatMap (fun c => utf8EncodeNat c.toNat) →
    l1 = l2
  | [], [], _ => rfl
  | [], d :: l2, h => by
    simp only [List.flatMap_nil, List.flatMap_cons] at h
    have := congrArg List.length h
    unfold utf8EncodeNat at this
    split_ifs at this <;> simp at this
  | c :: l1, [], h => by
    simp only [List.flatMap_nil, List.flatMap_cons] at h
    have := congrArg List.length h
    unfold utf8EncodeNat at this
    split_ifs at this <;> simp at this
  | c :: l1, d :: l2, h => by
    simp only [List.flatMap_cons] at h
    obtain ⟨hc, hl⟩ := utf8EncodeNat_append_inj _ _ _ _ h
    have hcd : c = d := by
      rw [← Char.ofNat_toNat c, ← Char.ofNat_toNat d, hc]
    rw [hcd, bytesOf_chars_inj l1 l2 hl]

theorem bytesOf_injective (a b : String) (h : bytesOf a = bytesOf b) : a = b := by
  have := bytesOf_chars_inj a.data b.data h
  exact String.ext this

instance : IsAntisymm String keyLE :=
  ⟨fun a b h1 h2 => bytesOf_injective a b (le_antisymm (α := List Nat) h1 h2)⟩

theorem sortKeys_sorted_strict (keys : List String) (h : keys.Nodup) :
    (sortKeys keys).Pairwise (fun a b => bytesOf a < bytesOf b) := by
  have hn : (sortKeys keys).Pairwise (fun a b => a ≠ b) :=
    (sortKeys_perm keys).nodup_iff.mpr h
  exact ((sortKeys_sorted keys).and hn).imp
    (fun hab => lt_of_le_of_ne hab.1 (fun e => hab.2 (bytesOf_injective _ _ e)))

/-- Any ascending arrangement of the keys is the one `sortKeys` returns: the result of
`slices.Sort` does not depend on the sorting algorithm. -/
theorem sortKeys_unique (keys l : List String) (hp : l.Perm keys) (hs : l.Pairwise keyLE) :
    l = sortKeys keys :=
  List.eq_of_perm_of_sorted (hp.trans (sortKeys_perm keys).symm) hs (sortKeys_sorted keys)

theorem lookup_of_mem {β : Type} (m : List (String × β)) (h : NodupKeys m) :
    ∀ e ∈ m, m.lookup e.1 = some e.2 := by
  induction m with
  | nil => simp
  | cons a m ih =>
    intro e he
    have hn : a.1 ∉ m.map Prod.fst ∧ (m.map Prod.fst).Nodup := by
      simpa [NodupKeys] using h
    rcases List.mem_cons.mp he with rfl | hm
    · simp [List.lookup]
    · have hne : e.1 ≠ a.1 := by
        intro heq
        exact hn.1 (heq ▸ List.mem_map_of_mem Prod.fst hm)
      obtain ⟨ak, av⟩ := a
      simp only [List.lookup]
      have : (e.1 == ak) = false := by simpa using hne
      rw [this]
      exact ih hn.2 e hm

theorem lookup_perm {β : Type} (m1 m2 : List (String × β)) (hp : m1.Perm m2)
    (hn : NodupKeys m1) (k : String) : m1.lookup k = m2.lookup k := by
  have hn2 : NodupKeys m2 := (hp.map Prod.fst).nodup_iff.mp hn
  cases h1 : m1.lookup k with
  | some v =>
    have hmem : (k, v) ∈ m1 := by
      clear hp hn hn2
      induction m1 with
      | nil => simp at h1
      | cons a m ih =>
        obtain ⟨ak, av⟩ := a
        simp only [List.lookup] at h1
        by_cases hk : k = ak
        · subst hk
          simp at h1
          simp [h1]
        · have : (k == ak) = false := by simpa using hk
          rw [this] at h1
          exact List.mem_cons_of_mem _ (ih h1)
    exact (lookup_of_mem m2 hn2 (k, v) (hp.subset hmem)).symm
  | none =>
    cases h2 : m2.lookup k with
    | none => rfl
    | some v =>
      have hmem : (k, v) ∈ m2 := by
        clear hp hn hn2 h1
        induction m2 with
        | nil => simp at h2
        | cons a m ih =>
          obtain ⟨ak, av⟩ := a
          simp only [List.lookup] at h2
          by_cases hk : k = ak
          · subst hk
            simp at h2
            simp [h2]
          · have : (k == ak) = false := by simpa using hk
            rw [this] at h2
            exact List.mem_cons_of_mem _ (ih h2)
      have := lookup_of_mem m1 hn (k, v) (hp.symm.subset hmem)
      simp at this
      rw [this] at h1
      cases h1

/-- The order of the top-level entries does not matter: two parameter sets with the same
entries, visited in any two orders, have the same canonical string. -/
theorem queryString_perm (fmtFloat : Float64 → String) (p1 p2 : params)
    (hp : p1.Perm p2) (hn : NodupKeys p1) :
    queryString fmtFloat p1 = queryString fmtFloat p2 := by
  rw [queryString_eq, queryString_eq]
  have hk : sortKeys (p1.map Prod.fst) = sortKeys (p2.map Prod.fst) :=
    sortKeys_unique _ _ ((sortKeys_perm _).trans (hp.map Prod.fst)) (sortKeys_sorted _)
  rw [hk]
  congr 1
  apply List.map_congr_left
  intro k _
  simp [params.get, lookup_perm p1 p2 hp hn k]

/-! ## Lemmas: digest, MAC and hexadecimal text -/

theorem sha512_length (msg : List Nat) : (sha512 msg).length = 64 := by
  simp [sha512, wordBytes]

theorem wordBytes_lt (w : Nat) : ∀ b ∈ wordBytes w, b < 256 := by
  intro b hb
  simp only [wordBytes, List.mem_cons, List.mem_singleton, List.not_mem_nil, or_false] at hb
  rcases hb with rfl | rfl | rfl | rfl | rfl | rfl | rfl | rfl <;>
    exact Nat.mod_lt _ (by decide)

theorem sha512_byte (msg : List Nat) : ∀ b ∈ sha512 msg, b < 256 := by
  intro b hb
  simp only [sha512, List.mem_append] at hb
  rcases hb with ((((((hb | hb) | hb) | hb) | hb) | hb) | hb) | hb <;>
    exact wordBytes_lt _ b hb

set_option maxRecDepth 100000 in
/-- The embedding of SHA-512 reproduces the digest of "abc" given in FIPS 180-4. -/
theorem sha512_abc :
    hexEncodeToString (sha512 (bytesOf "abc"))
      = "ddaf35a193617abacc417349ae20413112e6fa4e89a97ea20a9eeee64b55d39a2192992a274fc1a836ba3c23a3feebbd454d4423643ce80e2a9ac94fa54ca49f" := by
  decide

set_option maxRecDepth 100000 in
/-- The signature of the empty parameter set under the secret "s3cr3t": the HMAC-SHA512
of the empty string, in lowercase hexadecimal. -/
theorem Sign_empty_s3cr3t (fmtFloat : Float64 → String) :
    Sign fmtFloat "s3cr3t" []
      = .ok "e13c8f10feec245ceea08d132d8b129984a2168a82d066f240bbadca3c22768daf38ccf99fa9259e61ac6b66785947e3f784c5d1e0c5c068b4c3b352a2e670fe" := by
  have h : hexEncodeToString (hmacSHA512 (bytesOf "s3cr3t") (bytesOf ""))
      = "e13c8f10feec245ceea08d132d8b129984a2168a82d066f240bbadca3c22768daf38ccf99fa9259e61ac6b66785947e3f784c5d1e0c5c068b4c3b352a2e670fe" := by
    decide
  simp only [Sign, signPayload, HMAC.Write]
  exact congrArg Except.ok h

theorem hmacSHA512_length (key msg : List Nat) : (hmacSHA512 key msg).length = 64 := by
  simp [hmacSHA512, HMAC.Sum, sha512_length]

theorem hmacSHA512_byte (key msg : List Nat) : ∀ b ∈ hmacSHA512 key msg, b < 256 := by
  intro b hb
  simp only [hmacSHA512, HMAC.Sum, List.nil_append] at hb
  exact sha512_byte _ b hb

theorem hmacSHA512_blockKey (key key2 msg : List Nat)
    (h : hmacBlockKey key = hmacBlockKey key2) : hmacSHA512 key msg = hmacSHA512 key2 msg := by
  simp [hmacSHA512, hmacNew, h]

theorem signPayload_eq (fmtFloat : Float64 → String) (secret : List Nat) (p : params) :
    signPayload fmtFloat secret p
      = .ok (hmacSHA512 secret (bytesOf (queryString fmtFloat p))) := by
  simp [signPayload, hmacSHA512, HMAC.Write]

theorem Sign_eq (fmtFloat : Float64 → String) (secret : String) (p : params) :
    Sign fmtFloat secret p
      = .ok (hexEncodeToString (hmacSHA512 (bytesOf secret) (bytesOf (queryString fmtFloat p)))) := by
  simp [Sign, signPayload_eq]

theorem Verify_eq (fmtFloat : Float64 → String) (secret : List Nat) (p : params)
    (sig : List Nat) :
    Verify fmtFloat secret p sig
      = decide (hmacSHA512 secret (bytesOf (queryString fmtFloat p)) = sig) := by
  simp [Verify, signPayload_eq, hmacEqual]

theorem hexDigit_facts : ∀ n, n < 16 →
    utf8EncodeNat (hexDigit n).toNat = [(hexDigit n).toNat] ∧
    fromHexChar (hexDigit n).toNat = some n := by
  decide

theorem bytesOf_mk_cons (c : Char) (cs : List Char) :
    bytesOf (String.mk (c :: cs)) = utf8EncodeNat c.toNat ++ bytesOf (String.mk cs) := by
  simp [bytesOf]

theorem hexEncodeToString_cons (b : Nat) (bs : List Nat) :
    hexEncodeToString (b :: bs)
      = String.mk (hexDigit (b % 256 / 16) :: hexDigit (b % 16) :: (hexEncodeToString bs).data) := by
  simp [hexEncodeToString]

theorem hexEncodeToString_length (bs : List Nat) :
    (hexEncodeToString bs).length = 2 * bs.length := by
  induction bs with
  | nil => rfl
  | cons b bs ih =>
    rw [hexEncodeToString_cons]
    simp only [String.length, List.length_cons] at ih ⊢
    omega

theorem bytesOf_hexEncodeToString_length (bs : List Nat) :
    (bytesOf (hexEncodeToString bs)).length = 2 * bs.length := by
  induction bs with
  | nil => rfl
  | cons b bs ih =>
    have h1 := (hexDigit_facts (b % 256 / 16) (by omega)).1
    have h2 := (hexDigit_facts (b % 16) (by omega)).1
    rw [hexEncodeToString_cons, bytesOf_mk_cons, bytesOf_mk_cons, h1, h2]
    have : String.mk (hexEncodeToString bs).data = hexEncodeToString bs := rfl
    rw [this]
    simp only [List.length_append, List.length_cons, List.length_nil, ih]
    omega

theorem hexEncodeToString_ne_empty (bs : List Nat) (h : bs.length = 64) :
    hexEncodeToString bs ≠ "" ∧ (hexEncodeToString bs).length = 128 := by
  have hl := hexEncodeToString_length bs
  rw [h] at hl
  refine ⟨?_, hl⟩
  intro he
  rw [he] at hl
  simp at hl

theorem hexDecodeString_hexEncodeToString (bs : List Nat) (h : ∀ b ∈ bs, b < 256) :
    hexDecodeString (hexEncodeToString bs) = .ok bs := by
  induction bs with
  | nil => rfl
  | cons b bs ih =>
    have hb : b < 256 := h b (List.mem_cons_self _ _)
    have h1 := hexDigit_facts (b % 256 / 16) (by omega)
    have h2 := hexDigit_facts (b % 16) (by omega)
    have ih2 := ih (fun x hx => h x (List.mem_cons_of_mem _ hx))
    unfold hexDecodeString at ih2 ⊢
    rw [hexEncodeToString_cons, bytesOf_mk_cons, bytesOf_mk_cons, h1.1, h2.1]
    have : String.mk (hexEncodeToString bs).data = hexEncodeToString bs := rfl
    rw [this]
    have hb2 : b % 256 / 16 * 16 + b % 16 = b := by omega
    simp only [List.singleton_append, List.cons_append, List.nil_append]
    simp only [hexDecode, h1.2, h2.2, ih2, hb2]

theorem Verify_sign_text (fmtFloat : Float64 → String) (secret : String) (p : params) :
    ∃ sig, Sign fmtFloat secret p = .ok sig ∧
      Verify fmtFloat (bytesOf secret) p (bytesOf sig) = false := by
  refine ⟨_, Sign_eq fmtFloat secret p, ?_⟩
  rw [Verify_eq, decide_eq_false_iff_not]
  intro h
  have h1 := congrArg List.length h
  rw [hmacSHA512_length, bytesOf_hexEncodeToString_length, hmacSHA512_length] at h1
  omega

/-! ## Lemmas: the header builder -/

theorem signedGetHeader_get (apiKey signature : String) :
    (signedGetHeader apiKey signature).Get "Authorization" = "TDAX-API " ++ apiKey ∧
    (signedGetHeader apiKey signature).Get "Signature" = signature ∧
    (signedGetHeader apiKey signature).Values "Content-Type" = none := by
  have h1 : canonicalMIMEHeaderKey "Authorization" = "Authorization" := by decide
  have h2 : canonicalMIMEHeaderKey "Signature" = "Signature" := by decide
  have h3 : canonicalMIMEHeaderKey "Content-Type" = "Content-Type" := by decide
  simp [signedGetHeader, Header.Set, Header.Get, Header.Values, mapSet, h1, h2, h3, List.lookup]

theorem signedBodyHeader_get (apiKey signature : String) :
    (signedBodyHeader apiKey signature).Get "Content-Type" = "application/json" ∧
    (signedBodyHeader apiKey signature).Get "Authorization" = "TDAX-API " ++ apiKey ∧
    (signedBodyHeader apiKey signature).Get "Signature" = signature := by
  have h1 : canonicalMIMEHeaderKey "Authorization" = "Authorization" := by decide
  have h2 : canonicalMIMEHeaderKey "Signature" = "Signature" := by decide
  have h3 : canonicalMIMEHeaderKey "Content-Type" = "Content-Type" := by decide
  simp [signedBodyHeader, Header.Set, Header.Get, mapSet, h1, h2, h3, List.lookup]

theorem buildHeader_get (fmtFloat : Float64 → String)
    (unmarshal : List Nat → Except String params) (c : Client) (r : request)
    (hs : r.secType = .secTypeSigned) (hm : r.method = MethodGet) :
    buildHeader fmtFloat unmarshal c r
      = ({ r with header := some (signedGetHeader c.apiKey
            (hexEncodeToString (hmacSHA512 (bytesOf c.apiSecret) (bytesOf (queryString fmtFloat []))))) },
         none) := by
  simp [buildHeader, hs, hm, Sign_eq, MethodGet, MethodPost, MethodDelete, signedGetHeader]

theorem buildHeader_body (fmtFloat : Float64 → String)
    (unmarshal : List Nat → Except String params) (c : Client) (r : request) (p : params)
    (hs : r.secType = .secTypeSigned) (hm : r.method = MethodPost ∨ r.method = MethodDelete)
    (hb : unmarshal r.bodyBuffer = .ok p) :
    buildHeader fmtFloat unmarshal c r
      = ({ r with body := some r.bodyBuffer, header := some (signedBodyHeader c.apiKey
            (hexEncodeToString (hmacSHA512 (bytesOf c.apiSecret) (bytesOf (queryString fmtFloat p))))) },
         none) := by
  have hg : r.method ≠ MethodGet := by
    rcases hm with h | h <;> rw [h] <;> decide
  simp [buildHeader, hs, hm, hg, hb, Sign_eq, signedBodyHeader]

theorem ensureInitialized_fields (r : request) :
    r.ensureInitialized.secType = r.secType ∧ r.ensureInitialized.method = r.method ∧
    r.ensureInitialized.header = r.header ∧ r.ensureInitialized.bodyBuffer = r.bodyBuffer := by
  unfold request.ensureInitialized
  by_cases h1 : r.query = none <;> by_cases h2 : r.form = none <;> simp [h1, h2]

theorem parseRequest_header (fmtFloat : Float64 → String)
    (unmarshal : List Nat → Except String params) (c : Client) (r : request)
    (opts : List RequestOption) :
    (parseRequest fmtFloat unmarshal c r opts).2
        = (buildHeader fmtFloat unmarshal c
            (opts.foldl (fun r opt => opt r) r).ensureInitialized).2 ∧
    (parseRequest fmtFloat unmarshal c r opts).1.header
        = (buildHeader fmtFloat unmarshal c
            (opts.foldl (fun r opt => opt r) r).ensureInitialized).1.header := by
  unfold parseRequest
  simp only
  generalize buildHeader fmtFloat unmarshal c
      (opts.foldl (fun r opt => opt r) r).ensureInitialized = res
  rcases res with ⟨r2, _ | err⟩ <;> simp [buildFullURL]

theorem buildHeader_carries (fmtFloat : Float64 → String)
    (unmarshal : List Nat → Except String params) (c : Client) (r : request)
    (hs : r.secType = .secTypeSigned)
    (hm : r.method = MethodGet ∨ r.method = MethodPost ∨ r.method = MethodDelete)
    (hok : (buildHeader fmtFloat unmarshal c r).2 = none) :
    carriesSignature c (buildHeader fmtFloat unmarshal c r).1.header := by
  rcases hm with hm | hm
  · rw [buildHeader_get fmtFloat unmarshal c r hs hm]
    have hg := signedGetHeader_get c.apiKey
      (hexEncodeToString (hmacSHA512 (bytesOf c.apiSecret) (bytesOf (queryString fmtFloat []))))
    have hn := hexEncodeToString_ne_empty _
      (hmacSHA512_length (bytesOf c.apiSecret) (bytesOf (queryString fmtFloat [])))
    exact ⟨_, rfl, hg.1, by rw [hg.2.1]; exact hn.1, by rw [hg.2.1]; exact hn.2⟩
  · rcases hu : unmarshal r.bodyBuffer with err | p
    · have hg : r.method ≠ MethodGet := by
        rcases hm with h | h <;> rw [h] <;> decide
      simp [buildHeader, hs, hm, hg, hu] at hok
    · rw [buildHeader_body fmtFloat unmarshal c r p hs hm hu]
      have hg := signedBodyHeader_get c.apiKey
        (hexEncodeToString (hmacSHA512 (bytesOf c.apiSecret) (bytesOf (queryString fmtFloat p))))
      have hn := hexEncodeToString_ne_empty _
        (hmacSHA512_length (bytesOf c.apiSecret) (bytesOf (queryString fmtFloat p)))
      exact ⟨_, rfl, hg.2.1, by rw [hg.2.2]; exact hn.1, by rw [hg.2.2]; exact hn.2⟩

/-! ## The canonicalizer: claims C1 to C4 -/

/-- C1. For a parameter set with distinct keys whose values are all strings or integers,
`queryString` is the list of pairs `key=value` joined by `&`, the entries of the set
taken in strictly ascending byte-wise order of their keys: the emitted entries are a
permutation of the entries of the set (each key once) and nothing precedes or follows the
joined pairs. -/
theorem queryString_flat_sorted (fmtFloat : Float64 → String) (p : params)
    (hkeys : NodupKeys p) (hvals : ∀ e ∈ p, isStringOrInt e.2 = true) :
    ∃ es : List (String × Value),
      es.Perm p ∧ es.Pairwise (fun a b => bytesOf a.1 < bytesOf b.1) ∧
      queryString fmtFloat p
        = "&".intercalate (es.map (fun e => e.1 ++ "=" ++ plainText e.2)) := by
  refine ⟨(sortKeys (p.map Prod.fst)).map (fun k => (k, p.get k)), ?_, ?_, ?_⟩
  · have h1 : (p.map Prod.fst).map (fun k => (k, p.get k)) = p := by
      rw [List.map_map]
      conv_rhs => rw [← List.map_id p]
      apply List.map_congr_left
      intro e he
      simp [params.get, lookup_of_mem p hkeys e he]
    have h2 := (sortKeys_perm (p.map Prod.fst)).map (fun k => (k, p.get k))
    rwa [h1] at h2
  · rw [List.pairwise_map]
    exact (sortKeys_sorted_strict (p.map Prod.fst) hkeys).imp (fun h => h)
  · rw [queryString_eq, List.map_map]
    congr 1
    apply List.map_congr_left
    intro k hk
    have hk2 : k ∈ p.map Prod.fst := (sortKeys_perm _).subset hk
    obtain ⟨e, he, rfl⟩ := List.mem_map.mp hk2
    have hv := hvals e he
    have hl : p.get e.1 = e.2 := by simp [params.get, lookup_of_mem p hkeys e he]
    simp only [Function.comp, hl]
    obtain ⟨k, v⟩ := e
    match v, hv with
    | .leaf (.str s), _ => simp [appendKeyValue, writeKeyValue, leafText, plainText]
    | .leaf (.int i), _ => simp [appendKeyValue, writeKeyValue, leafText, plainText]

/-- C1, at an instance: the set with `symbol` = "USDT_THB" and `limit` = 5. -/
theorem queryString_flat_sorted_witness :
    ∃ es : List (String × Value),
      es.Perm [("symbol", Value.str "USDT_THB"), ("limit", Value.int 5)] ∧
      es.Pairwise (fun a b => bytesOf a.1 < bytesOf b.1) ∧
      queryString (fun _ => "") [("symbol", Value.str "USDT_THB"), ("limit", Value.int 5)]
        = "&".intercalate (es.map (fun e => e.1 ++ "=" ++ plainText e.2)) :=
  queryString_flat_sorted (fun _ => "") [("symbol", .str "USDT_THB"), ("limit", .int 5)]
    (by decide) (by decide)

/-- C2. Two parameter sets that are equal by value, differing only in the order in which
the entries of the nested mapping under `a` are visited, get different canonical strings:
the nested entries are written in iteration order and are not sorted. -/
theorem queryString_nested_iteration_order (fmtFloat : Float64 → String) :
    queryString fmtFloat [("a", .map [("b", .str "1"), ("c", .str "2")])] = "a[b]=1a[c]=2" ∧
    queryString fmtFloat [("a", .map [("c", .str "2"), ("b", .str "1")])] = "a[c]=2a[b]=1" ∧
    queryString fmtFloat [("a", .map [("b", .str "1"), ("c", .str "2")])]
      ≠ queryString fmtFloat [("a", .map [("c", .str "2"), ("b", .str "1")])] := by
  refine ⟨rfl, rfl, ?_⟩
  rw [show queryString fmtFloat [("a", .map [("b", .str "1"), ("c", .str "2")])]
      = "a[b]=1a[c]=2" from rfl,
    show queryString fmtFloat [("a", .map [("c", .str "2"), ("b", .str "1")])]
      = "a[c]=2a[b]=1" from rfl]
  decide

/-- C3. The sequence `["x", "y"]` under key `a` is written as `a[0]=xa[1]=y`, with no `&`
between the two pairs, when it is a `[]any`, and as `a=[x y]` when it is a `[]string`;
neither is `a[0]=x&a[1]=y`. -/
theorem queryString_sequence_no_separator (fmtFloat : Float64 → String) :
    queryString fmtFloat [("a", .seq [.str "x", .str "y"])] = "a[0]=xa[1]=y" ∧
    queryString fmtFloat [("a", .leaf (.strs ["x", "y"]))] = "a=[x y]" ∧
    queryString fmtFloat [("a", .seq [.str "x", .str "y"])] ≠ "a[0]=x&a[1]=y" ∧
    queryString fmtFloat [("a", .leaf (.strs ["x", "y"]))] ≠ "a[0]=x&a[1]=y" := by
  refine ⟨rfl, rfl, ?_, ?_⟩
  · rw [show queryString fmtFloat [("a", .seq [.str "x", .str "y"])] = "a[0]=xa[1]=y" from rfl]
    decide
  · rw [show queryString fmtFloat [("a", .leaf (.strs ["x", "y"]))] = "a=[x y]" from rfl]
    decide

/-- C4. A chain of single-key mappings `k1: (k2: ... (kn: v))` is canonicalized to
`k1[k2]...[kn]=v`, for every chain (the list `ks` holds `k2 ... kn`) and every string `v`;
in particular the set with `b` = "1" nested under `a` gives `a[b]=1`. -/
theorem queryString_nested_chain (fmtFloat : Float64 → String) (k1 : String)
    (ks : List String) (v : String) :
    queryString fmtFloat [(k1, nestChain ks v)]
        = k1 ++ String.join (ks.map (fun k => "[" ++ k ++ "]")) ++ "=" ++ v ∧
    queryString fmtFloat [("a", .map [("b", .str "1")])] = "a[b]=1" := by
  refine ⟨?_, rfl⟩
  rw [queryString_eq]
  simp [sortKeys, params.get, List.lookup, intercalate_singleton, appendKeyValue_nestChain]

/-! ## The float formatter: claim C5 -/

theorem roundHalfEven_spec (m k : Nat) :
    |((roundHalfEven m k : Nat) : ℚ) - (m : ℚ) / 2 ^ k| ≤ 1 / 2 ∧
    (|((roundHalfEven m k : Nat) : ℚ) - (m : ℚ) / 2 ^ k| = 1 / 2 →
      roundHalfEven m k % 2 = 0) := by
  have hd : (0 : ℚ) < 2 ^ k := by positivity
  have hdn : 0 < 2 ^ k := by positivity
  have hm : m = 2 ^ k * (m / 2 ^ k) + m % 2 ^ k := (Nat.div_add_mod m (2 ^ k)).symm
  have hr : m % 2 ^ k < 2 ^ k := Nat.mod_lt _ hdn
  have hmq : (m : ℚ) / 2 ^ k
      = ((m / 2 ^ k : Nat) : ℚ) + ((m % 2 ^ k : Nat) : ℚ) / 2 ^ k := by
    conv_lhs => rw [hm]
    push_cast
    field_simp
    ring
  have hr0 : (0 : ℚ) ≤ ((m % 2 ^ k : Nat) : ℚ) / 2 ^ k := by positivity
  have hrq : ((m % 2 ^ k : Nat) : ℚ) < 2 ^ k := by exact_mod_cast hr
  have hhalf : ∀ t : ℚ, (t / 2 ^ k ≤ 1 / 2 ↔ 2 * t ≤ 2 ^ k) := by
    intro t
    rw [div_le_iff₀ hd]
    constructor <;> intro h <;> linarith
  have hhalf2 : ∀ t : ℚ, (1 / 2 ≤ t / 2 ^ k ↔ 2 ^ k ≤ 2 * t) := by
    intro t
    rw [le_div_iff₀ hd]
    constructor <;> intro h <;> linarith
  have hlt1 : ((m % 2 ^ k : Nat) : ℚ) / 2 ^ k < 1 := by
    rw [div_lt_one hd]
    exact hrq
  unfold roundHalfEven
  simp only
  rw [hmq]
  generalize hq : m / 2 ^ k = q
  generalize hrr : m % 2 ^ k = r at *
  split_ifs with hc
  · have h2 : 2 ^ k ≤ 2 * r := by omega
    have h2q : (2 : ℚ) ^ k ≤ 2 * (r : ℚ) := by exact_mod_cast h2
    have h3 := (hhalf2 (r : ℚ)).mpr h2q
    have e : ((q + 1 : Nat) : ℚ) - ((q : ℚ) + (r : ℚ) / 2 ^ k) = 1 - (r : ℚ) / 2 ^ k := by
      push_cast
      ring
    rw [e, abs_of_nonneg (by linarith)]
    refine ⟨by linarith, ?_⟩
    intro he
    have h4 : (r : ℚ) / 2 ^ k ≤ 1 / 2 := by linarith
    have h5 := (hhalf (r : ℚ)).mp h4
    have h6 : 2 * r ≤ 2 ^ k := by exact_mod_cast h5
    rcases hc with hc | hc
    · omega
    · omega
  · have h2 : 2 * r ≤ 2 ^ k := by
      by_contra hlt
      exact hc (Or.inl (by omega))
    have h2q : 2 * (r : ℚ) ≤ (2 : ℚ) ^ k := by exact_mod_cast h2
    have h3 := (hhalf (r : ℚ)).mpr h2q
    have e : (q : ℚ) - ((q : ℚ) + (r : ℚ) / 2 ^ k) = -((r : ℚ) / 2 ^ k) := by ring
    rw [e, abs_neg, abs_of_nonneg hr0]
    refine ⟨h3, ?_⟩
    intro he
    have h4 := (hhalf2 (r : ℚ)).mp (le_of_eq he.symm)
    have h6 : 2 ^ k ≤ 2 * r := by exact_mod_cast h4
    have h7 : 2 * r = 2 ^ k := by omega
    by_contra hodd
    exact hc (Or.inr ⟨h7, by omega⟩)

/-- The rounded magnitude of a float64 is the integer nearest to its magnitude, the even
one at a tie. -/
theorem nearest_spec (x : Float64) :
    |(x.nearest : ℚ) - x.magnitude| ≤ 1 / 2 ∧
    (|(x.nearest : ℚ) - x.magnitude| = 1 / 2 → x.nearest % 2 = 0) := by
  unfold Float64.nearest Float64.magnitude
  split_ifs with h
  · have e : ((x.mant * 2 ^ (x.shift - 1075) : Nat) : ℚ)
        - (x.mant : ℚ) * 2 ^ (x.shift - 1075) = 0 := by
      push_cast
      ring
    rw [e]
    norm_num
  · exact roundHalfEven_spec _ _

theorem queryString_float (n : String) (x : Float64) :
    queryString formatFloat [(n, .leaf (.float x))] = n ++ "=" ++ formatFloat x := by
  rw [queryString_eq]
  simp [sortKeys, params.get, List.lookup, intercalate_singleton, appendKeyValue,
    writeKeyValue, leafText]

/-- C5, as stated: the float64 value -0.25 (sign bit set, magnitude 1/4) is finite and the
integer nearest to it is 0, whose decimal digits are "0", yet `queryString` writes `n=-0`;
the value 2.5 lies halfway between 2 and 3 and is written `n=2`, as truncation would. -/
theorem queryString_float_negative_zero :
    Float64.isFinite ⟨0xBFD0000000000000⟩ = true ∧
    Float64.signBit ⟨0xBFD0000000000000⟩ = true ∧
    Float64.magnitude ⟨0xBFD0000000000000⟩ = 1 / 4 ∧
    queryString formatFloat [("n", .leaf (.float ⟨0xBFD0000000000000⟩))] = "n=-0" ∧
    queryString formatFloat [("n", .leaf (.float ⟨0xBFD0000000000000⟩))] ≠ "n=0" ∧
    Float64.isFinite ⟨0x4004000000000000⟩ = true ∧
    Float64.signBit ⟨0x4004000000000000⟩ = false ∧
    Float64.magnitude ⟨0x4004000000000000⟩ = 5 / 2 ∧
    queryString formatFloat [("n", .leaf (.float ⟨0x4004000000000000⟩))] = "n=2" := by
  refine ⟨by decide, by decide, ?_, by decide, by decide, by decide, by decide, ?_, by decide⟩
  · norm_num [Float64.magnitude, Float64.mant, Float64.shift, Float64.biasedExp,
      Float64.fraction]
  · norm_num [Float64.magnitude, Float64.mant, Float64.shift, Float64.biasedExp,
      Float64.fraction]

/-- C5, amended. For every key `n` and every finite float64 `x`, `queryString` of the set
with `x` under `n` is `n=`, a minus sign when the sign bit of `x` is set, and the decimal
digits of a natural number: the integer nearest to the magnitude of `x`, the even one when
the magnitude lies halfway between two integers. No decimal point, exponent or fraction
digit is written. In particular 3.0 gives `n=3`, the float64 nearest to 3.7 gives `n=4`,
and the ties 2.5 and 0.5 give `n=2` and `n=0`. -/
theorem queryString_float_nearest_even (n : String) (x : Float64)
    (hx : x.isFinite = true) :
    queryString formatFloat [(n, .leaf (.float x))]
      = n ++ "=" ++ ((if x.signBit then "-" else "") ++ toString x.nearest) ∧
    |(x.nearest : ℚ) - x.magnitude| ≤ 1 / 2 ∧
    (|(x.nearest : ℚ) - x.magnitude| = 1 / 2 → x.nearest % 2 = 0) ∧
    Float64.magnitude ⟨0x4008000000000000⟩ = 3 ∧
    queryString formatFloat [("n", .leaf (.float ⟨0x4008000000000000⟩))] = "n=3" ∧
    |Float64.magnitude ⟨0x400D99999999999A⟩ - 37 / 10| < 1 / 2 ^ 52 ∧
    queryString formatFloat [("n", .leaf (.float ⟨0x400D99999999999A⟩))] = "n=4" ∧
    queryString formatFloat [("n", .leaf (.float ⟨0x4004000000000000⟩))] = "n=2" ∧
    Float64.magnitude ⟨0x3FE0000000000000⟩ = 1 / 2 ∧
    queryString formatFloat [("n", .leaf (.float ⟨0x3FE0000000000000⟩))] = "n=0" := by
  have hfin : x.biasedExp ≠ 2047 := by simpa [Float64.isFinite] using hx
  refine ⟨?_, (nearest_spec x).1, (nearest_spec x).2, ?_, by decide, ?_, by decide,
    by decide, ?_, by decide⟩
  · rw [queryString_float]
    simp [formatFloat, hfin]
  · norm_num [Float64.magnitude, Float64.mant, Float64.shift, Float64.biasedExp,
      Float64.fraction]
  · norm_num [Float64.magnitude, Float64.mant, Float64.shift, Float64.biasedExp,
      Float64.fraction, abs_lt]
  · norm_num [Float64.magnitude, Float64.mant, Float64.shift, Float64.biasedExp,
      Float64.fraction]

/-- C5, amended, at an instance: the float64 nearest to 3.7 under the key `n`. -/
theorem queryString_float_nearest_even_witness :
    Float64.isFinite ⟨0x400D99999999999A⟩ = true ∧
    queryString formatFloat [("n", .leaf (.float ⟨0x400D99999999999A⟩))]
      = "n" ++ "=" ++ ((if Float64.signBit ⟨0x400D99999999999A⟩ then "-" else "")
          ++ toString (Float64.nearest ⟨0x400D99999999999A⟩)) ∧
    |((Float64.nearest ⟨0x400D99999999999A⟩ : Nat) : ℚ)
        - Float64.magnitude ⟨0x400D99999999999A⟩| ≤ 1 / 2 ∧
    Float64.nearest ⟨0x400D99999999999A⟩ = 4 :=
  have h := queryString_float_nearest_even "n" ⟨0x400D99999999999A⟩ (by decide)
  ⟨by decide, h.1, h.2.1, by decide⟩

/-! ## The signer: claims C6 and C7

Both claims hand the result of `Sign` to `Verify`. `Sign` returns a text, `Verify` takes
bytes: the claims are read as that composition, the bytes being those of the text. -/

/-- C6, as stated: the text that `Sign` returns for the secret "s3cr3t" and the empty
parameter set, handed to `Verify` with the same secret and set, is rejected. `Sign`
returns 128 hexadecimal characters, `Verify` compares with the 64 bytes of the MAC. -/
theorem verify_rejects_sign_text :
    ∃ sig, Sign (fun _ => "") "s3cr3t" [] = .ok sig ∧
      Verify (fun _ => "") (bytesOf "s3cr3t") [] (bytesOf sig) = false :=
  Verify_sign_text (fun _ => "") "s3cr3t" []

/-- C6, amended. Take a secret and a parameter set in which no nested mapping has two or
more entries, so that the entries of the set are all a `range` loop can reorder. Let `Sign`
visit the entries in one order (`p1`) and `Verify` in any order of its own (`p2`). Then
`Sign` succeeds, the text it returns decodes (`hex.DecodeString`) to a byte string `d`,
and `Verify` with the same secret accepts `d`. -/
theorem verify_accepts_decoded_signature (fmtFloat : Float64 → String) (secret : String)
    (p1 p2 : params) (hk : NodupKeys p1) (hp : p1.Perm p2)
    (_ho : ∀ e ∈ p1, e.2.orderFree = true) :
    ∃ sig d, Sign fmtFloat secret p1 = .ok sig ∧ hexDecodeString sig = .ok d ∧
      Verify fmtFloat (bytesOf secret) p2 d = true := by
  refine ⟨_, hmacSHA512 (bytesOf secret) (bytesOf (queryString fmtFloat p1)),
    Sign_eq fmtFloat secret p1, ?_, ?_⟩
  · exact hexDecodeString_hexEncodeToString _ (hmacSHA512_byte _ _)
  · rw [Verify_eq, decide_eq_true_iff, queryString_perm fmtFloat p1 p2 hp hk]

/-- C6, amended, at an instance: the set with `symbol` = "USDT_THB" and `limit` = 5,
signed in this order and verified in the opposite one. -/
theorem verify_accepts_decoded_signature_witness :
    ∃ sig d,
      Sign formatFloat "s3cr3t" [("symbol", Value.str "USDT_THB"), ("limit", Value.int 5)]
        = .ok sig ∧
      hexDecodeString sig = .ok d ∧
      Verify formatFloat (bytesOf "s3cr3t")
        [("limit", Value.int 5), ("symbol", Value.str "USDT_THB")] d = true :=
  verify_accepts_decoded_signature formatFloat "s3cr3t"
    [("symbol", .str "USDT_THB"), ("limit", .int 5)]
    [("limit", .int 5), ("symbol", .str "USDT_THB")]
    (by decide) (List.Perm.swap _ _ _) (by decide)

/-- HMAC fills a key shorter than its block with zero bytes, so the secrets "s" and "s"
followed by a zero byte give one MAC: the raw MAC made under the second is accepted by
`Verify` under the first. -/
theorem Verify_zero_padded_secret :
    "s" ≠ "s\x00" ∧
    ∃ d, signPayload (fun _ => "") (bytesOf "s\x00") [("pair", Value.str "usdt_thb")] = .ok d ∧
      Verify (fun _ => "") (bytesOf "s") [("pair", Value.str "usdt_thb")] d = true := by
  refine ⟨by decide, _, signPayload_eq _ _ _, ?_⟩
  rw [Verify_eq, decide_eq_true_iff]
  exact hmacSHA512_blockKey _ _ _ (by decide)

/-! ## The header builder: claims C8 to C10 -/

/-- C9. For a signed GET descriptor `buildHeader` succeeds and leaves a header whose
`Authorization` is "TDAX-API " followed by the API key and whose `Signature` is the
result of `Sign` on the secret and the empty parameter set, the hexadecimal text of the
HMAC-SHA512 of the empty string; no other field of the descriptor changes and the header
is the same whatever the query parameters are. -/
theorem buildHeader_signed_get_signs_empty (fmtFloat : Float64 → String)
    (unmarshal : List Nat → Except String params) (c : Client) (r : request)
    (hs : r.secType = .secTypeSigned) (hm : r.method = MethodGet) :
    ∃ sig h, Sign fmtFloat c.apiSecret [] = .ok sig ∧
      sig = hexEncodeToString (hmacSHA512 (bytesOf c.apiSecret) []) ∧
      buildHeader fmtFloat unmarshal c r = ({ r with header := some h }, none) ∧
      h.Get "Authorization" = "TDAX-API " ++ c.apiKey ∧ h.Get "Signature" = sig ∧
      ∀ q : Option Values,
        (buildHeader fmtFloat unmarshal c { r with query := q }).1.header = some h := by
  have hg := signedGetHeader_get c.apiKey
    (hexEncodeToString (hmacSHA512 (bytesOf c.apiSecret) []))
  refine ⟨_, _, Sign_eq fmtFloat c.apiSecret [], rfl,
    buildHeader_get fmtFloat unmarshal c r hs hm, hg.1, hg.2.1, ?_⟩
  intro q
  rw [buildHeader_get fmtFloat unmarshal c { r with query := q } hs hm]

/-- C9, at an instance: a signed GET request of the example client. -/
theorem buildHeader_signed_get_signs_empty_witness :
    ∃ sig h, Sign (fun _ => "") exampleClient.apiSecret [] = .ok sig ∧
      sig = hexEncodeToString (hmacSHA512 (bytesOf exampleClient.apiSecret) []) ∧
      buildHeader (fun _ => "") exampleUnmarshal exampleClient (exampleRequest "GET" [])
        = ({ exampleRequest "GET" [] with header := some h }, none) ∧
      h.Get "Authorization" = "TDAX-API " ++ exampleClient.apiKey ∧ h.Get "Signature" = sig ∧
      ∀ q : Option Values,
        (buildHeader (fun _ => "") exampleUnmarshal exampleClient
          { exampleRequest "GET" [] with query := q }).1.header = some h :=
  buildHeader_signed_get_signs_empty (fun _ => "") exampleUnmarshal exampleClient
    (exampleRequest "GET" []) rfl rfl

theorem lookup_mapSet_self {β : Type} (m : List (String × β)) (k : String) (v : β) :
    (mapSet m k v).lookup k = some v := by
  induction m with
  | nil => simp [mapSet, List.lookup]
  | cons a m ih =>
    obtain ⟨ak, av⟩ := a
    by_cases h : ak = k
    · simp [mapSet, h, List.lookup]
    · have h2 : (k == ak) = false := by simpa using fun e => h e.symm
      simp [mapSet, h, List.lookup, h2, ih]

theorem Header_Get_Set (h : Header) (key value : String) :
    (Header.Set h key value).Get key = value := by
  simp [Header.Get, Header.Set, lookup_mapSet_self]

theorem hexEncodeToString_chars (bs : List Nat) :
    ∀ ch ∈ (hexEncodeToString bs).data, ch ∈ "0123456789abcdef".data := by
  have hd : ∀ n, n < 16 → hexDigit n ∈ "0123456789abcdef".data := by decide
  intro ch hch
  simp only [hexEncodeToString, List.mem_flatMap, List.mem_cons, List.mem_singleton,
    List.not_mem_nil, or_false] at hch
  obtain ⟨b, _, rfl | rfl⟩ := hch
  · exact hd _ (by omega)
  · exact hd _ (by omega)

/-! ## The signer: claims C17 and C18 -/

/-- C18. For every secret and every parameter set, `Sign` succeeds and returns a string of
exactly 128 characters, each one of `0123456789abcdef`: the lowercase hexadecimal text of
the 64-byte HMAC-SHA512 of the canonical string of the set under the secret. -/
theorem Sign_returns_128_hex_digits (fmtFloat : Float64 → String) (secret : String)
    (p : params) :
    ∃ sig, Sign fmtFloat secret p = .ok sig ∧ sig.length = 128 ∧
      (∀ ch ∈ sig.data, ch ∈ "0123456789abcdef".data) ∧
      (hmacSHA512 (bytesOf secret) (bytesOf (queryString fmtFloat p))).length = 64 ∧
      sig = hexEncodeToString
        (hmacSHA512 (bytesOf secret) (bytesOf (queryString fmtFloat p))) := by
  refine ⟨_, Sign_eq fmtFloat secret p, ?_, hexEncodeToString_chars _,
    hmacSHA512_length _ _, rfl⟩
  rw [hexEncodeToString_length, hmacSHA512_length]

theorem buildHeader_undecodable (fmtFloat : Float64 → String)
    (unmarshal : List Nat → Except String params) (c : Client) (r : request) (err : String)
    (hs : r.secType = .secTypeSigned) (hm : r.method = MethodPost ∨ r.method = MethodDelete)
    (hb : unmarshal r.bodyBuffer = .error err) :
    buildHeader fmtFloat unmarshal c r = (r, some ("err building header: " ++ err)) := by
  have hg : r.method ≠ MethodGet := by
    rcases hm with h | h <;> rw [h] <;> decide
  simp [buildHeader, hs, hm, hg, hb]

theorem ensureInitialized_more (r : request) :
    r.ensureInitialized.fullURL = r.fullURL ∧ r.ensureInitialized.endpoint = r.endpoint ∧
    r.ensureInitialized.body = r.body ∧
    r.ensureInitialized.query = some (r.query.getD []) := by
  unfold request.ensureInitialized
  by_cases h1 : r.query = none <;> by_cases h2 : r.form = none <;> simp [h1, h2]
  all_goals
    cases hq : r.query with
    | none => exact absurd hq h1
    | some q => rfl

/-- C11. For a signed POST or DELETE descriptor whose body `json.Unmarshal` does not decode
(it returns the error `err`; an absent body is such a body), `buildHeader` returns an error
and leaves the descriptor as it was; `parseRequest` returns that error, and after it the
header and the full URL are those the descriptor had when the options were done;
`callAPI` returns the error without handing any request to the HTTP client. Here `r` is
the descriptor as the options leave it. -/
theorem buildHeader_undecodable_body_no_call (fmtFloat : Float64 → String)
    (unmarshal : List Nat → Except String params) (http : HttpEnv) (c : Client) (r : request)
    (err : String) (hs : r.secType = .secTypeSigned)
    (hm : r.method = MethodPost ∨ r.method = MethodDelete)
    (hb : unmarshal r.bodyBuffer = .error err) :
    buildHeader fmtFloat unmarshal c r = (r, some ("err building header: " ++ err)) ∧
    ∀ (r0 : request) (opts : List RequestOption),
      opts.foldl (fun r opt => opt r) r0 = r →
      parseRequest fmtFloat unmarshal c r0 opts
        = (r.ensureInitialized, some ("err building header: " ++ err)) ∧
      (parseRequest fmtFloat unmarshal c r0 opts).1.header = r.header ∧
      (parseRequest fmtFloat unmarshal c r0 opts).1.fullURL = r.fullURL ∧
      callAPI fmtFloat unmarshal http c r0 opts
        = (.returned none (some ("failed to parse request: err building header: " ++ err)),
            []) := by
  refine ⟨buildHeader_undecodable fmtFloat unmarshal c r err hs hm hb, ?_⟩
  intro r0 opts hr
  have hf := ensureInitialized_fields r
  have hf2 := ensureInitialized_more r
  have hbh := buildHeader_undecodable fmtFloat unmarshal c r.ensureInitialized err
    (by rw [hf.1, hs]) (by rw [hf.2.1]; exact hm) (by rw [hf.2.2.2]; exact hb)
  have hp : parseRequest fmtFloat unmarshal c r0 opts
      = (r.ensureInitialized, some ("err building header: " ++ err)) := by
    simp only [parseRequest, hr, hbh]
  refine ⟨hp, ?_, ?_, ?_⟩
  · rw [hp]; exact hf.2.2.1
  · rw [hp]; exact hf2.1
  · simp only [callAPI, hp]
    rw [← String.append_assoc]
    rfl

/-- C11, at an instance: a signed POST request without a body. -/
theorem buildHeader_undecodable_body_no_call_witness :
    buildHeader (fun _ => "") exampleUnmarshal exampleClient (exampleRequest "POST" [])
      = (exampleRequest "POST" [], some "err building header: unexpected end of JSON input") ∧
    callAPI (fun _ => "") exampleUnmarshal (exampleHttp 200 "") exampleClient
        (exampleRequest "POST" []) []
      = (.returned none
          (some "failed to parse request: err building header: unexpected end of JSON input"),
          []) :=
  have h := buildHeader_undecodable_body_no_call (fun _ => "") exampleUnmarshal
    (exampleHttp 200 "") exampleClient (exampleRequest "POST" [])
    "unexpected end of JSON input" rfl (Or.inl rfl) rfl
  ⟨h.1, (h.2 (exampleRequest "POST" []) [] rfl).2.2.2⟩

/-- C12. For a descriptor with security class None, whatever its method, `buildHeader` of
`pkg/api` succeeds and leaves an empty header, and `buildHeader` of package `api` leaves a
header with the entry `Content-Type: application/json` only: neither header has an
`Authorization` or a `Signature` entry, and every key present is `Content-Type`. -/
theorem buildHeader_none_adds_no_auth (fmtFloat : Float64 → String)
    (unmarshal : List Nat → Except String params) (c : Client) (r : request)
    (hs : r.secType = .secTypeNone) :
    buildHeader fmtFloat unmarshal c r = ({ r with header := some [] }, none) ∧
    (Legacy.buildHeader c r).header = some [("Content-Type", ["application/json"])] ∧
    ∀ h : Header,
      ((buildHeader fmtFloat unmarshal c r).1.header = some h ∨
        (Legacy.buildHeader c r).header = some h) →
      h.Values "Authorization" = none ∧ h.Values "Signature" = none ∧
      h.Get "Authorization" = "" ∧ h.Get "Signature" = "" ∧
      ∀ k vs, (k, vs) ∈ h → k = "Content-Type" := by
  have h1 : buildHeader fmtFloat unmarshal c r = ({ r with header := some [] }, none) := by
    simp [buildHeader, hs]
  have hct : canonicalMIMEHeaderKey "Content-Type" = "Content-Type" := by decide
  have hau : canonicalMIMEHeaderKey "Authorization" = "Authorization" := by decide
  have hsi : canonicalMIMEHeaderKey "Signature" = "Signature" := by decide
  have h2 : (Legacy.buildHeader c r).header = some [("Content-Type", ["application/json"])] := by
    simp [Legacy.buildHeader, Header.Set, mapSet, hct]
  refine ⟨h1, h2, ?_⟩
  intro h hh
  rw [h1, h2] at hh
  rcases hh with hh | hh
  · simp only [Option.some.injEq] at hh
    subst hh
    simp [Header.Values, Header.Get]
  · simp only [Option.some.injEq] at hh
    subst hh
    simp [Header.Values, Header.Get, hau, hsi, List.lookup]

/-- C12, at an instance: the public order book depth request. -/
theorem buildHeader_none_adds_no_auth_witness :
    buildHeader (fun _ => "") exampleUnmarshal exampleClient depthRequest
      = ({ depthRequest with header := some [] }, none) ∧
    (Legacy.buildHeader exampleClient depthRequest).header
      = some [("Content-Type", ["application/json"])] :=
  have h := buildHeader_none_adds_no_auth (fun _ => "") exampleUnmarshal exampleClient
    depthRequest rfl
  ⟨h.1, h.2.1⟩

theorem buildHeader_none (fmtFloat : Float64 → String)
    (unmarshal : List Nat → Except String params) (c : Client) (r : request)
    (hs : r.secType = .secTypeNone) :
    buildHeader fmtFloat unmarshal c r = ({ r with header := some [] }, none) := by
  simp [buildHeader, hs]

theorem buildHeader_ok_fields (fmtFloat : Float64 → String)
    (unmarshal : List Nat → Except String params) (c : Client) (r : request)
    (hok : (buildHeader fmtFloat unmarshal c r).2 = none) :
    (buildHeader fmtFloat unmarshal c r).1.query = r.query ∧
    ∃ h, (buildHeader fmtFloat unmarshal c r).1.header = some h := by
  by_cases hg : r.secType = .secTypeSigned ∧ r.method = MethodGet
  · rw [buildHeader_get fmtFloat unmarshal c r hg.1 hg.2]
    exact ⟨rfl, _, rfl⟩
  · by_cases hp : r.secType = .secTypeSigned ∧ (r.method = MethodPost ∨ r.method = MethodDelete)
    · rcases hu : unmarshal r.bodyBuffer with err | p
      · rw [buildHeader_undecodable fmtFloat unmarshal c r err hp.1 hp.2 hu] at hok
        simp at hok
      · rw [buildHeader_body fmtFloat unmarshal c r p hp.1 hp.2 hu]
        exact ⟨rfl, _, rfl⟩
    · have : buildHeader fmtFloat unmarshal c r = ({ r with header := some [] }, none) := by
        simp [buildHeader, hg, hp]
      rw [this]
      exact ⟨rfl, _, rfl⟩

theorem Legacy_parseRequest_eq (c : Client) (r : request) (opts : List RequestOption) :
    Legacy.parseRequest c r opts
      = (buildFullURL c
          { (opts.foldl (fun r opt => opt r) r).ensureInitialized with
            header := some [("Content-Type", ["application/json"])] }, none) := by
  have hct : canonicalMIMEHeaderKey "Content-Type" = "Content-Type" := by decide
  simp [Legacy.parseRequest, Legacy.buildHeader, Header.Set, mapSet, hct]

/-- C15. The two options are applied in the order given, and after them the header of
the descriptor has `k` = `v2`; but `buildHeader` then replaces the header by the one it
builds, so after `parseRequest` the header holds nothing the options set. For the key
`X-Test` it has no value, in `pkg/api` and in package `api`. -/
theorem parseRequest_drops_option_headers (fmtFloat : Float64 → String)
    (unmarshal : List Nat → Except String params) (c : Client) (k v1 v2 : String) :
    (([WithHeader k v1 true, WithHeader k v2 true].foldl (fun r opt => opt r)
      depthRequest).header.getD []).Get k = v2 ∧
    (parseRequest fmtFloat unmarshal c depthRequest
      [WithHeader k v1 true, WithHeader k v2 true]).1.header = some [] ∧
    (Legacy.parseRequest c depthRequest
      [WithHeader k v1 true, WithHeader k v2 true]).1.header
      = some [("Content-Type", ["application/json"])] ∧
    Header.Get [] "X-Test" = "" ∧
    Header.Get [("Content-Type", ["application/json"])] "X-Test" = "" := by
  refine ⟨?_, ?_, ?_, by decide, by decide⟩
  · simp only [List.foldl_cons, List.foldl_nil, WithHeader, if_true, Option.getD_some]
    exact Header_Get_Set _ k v2
  · have hp := parseRequest_header fmtFloat unmarshal c depthRequest
      [WithHeader k v1 true, WithHeader k v2 true]
    rw [hp.2]
    have hn : ([WithHeader k v1 true, WithHeader k v2 true].foldl (fun r opt => opt r)
        depthRequest).ensureInitialized.secType = .secTypeNone := by
      rw [(ensureInitialized_fields _).1]
      rfl
    rw [buildHeader_none fmtFloat unmarshal c _ hn]
  · rw [Legacy_parseRequest_eq]
    rfl

/-- C19, as stated: the order book depth request has no header; after `parseRequest` of
package `api`, which succeeds, its header is not empty: it holds `Content-Type`. -/
theorem parseRequest_header_not_empty :
    depthRequest.header = none ∧
    (Legacy.parseRequest exampleClient depthRequest []).2 = none ∧
    (Legacy.parseRequest exampleClient depthRequest []).1.header
      = some [("Content-Type", ["application/json"])] ∧
    (Legacy.parseRequest exampleClient depthRequest []).1.header ≠ some [] := by
  decide

/-- C19, amended. After `parseRequest` returns successfully (in package `api` it always
does) the query container and the header container are both set. The query container is
the one the caller and the options left, with its entries unchanged, or the empty one when
they left it unset. When the caller and the options left the header unset, the header is
the one `buildHeader` builds, which need not be empty: in package `api` it holds the entry
`Content-Type: application/json`; in `pkg/api` it is empty for security class None and
carries `Authorization` and `Signature` for a signed GET, POST or DELETE request. -/
theorem parseRequest_containers_set (fmtFloat : Float64 → String)
    (unmarshal : List Nat → Except String params) (c : Client) (r : request)
    (opts : List RequestOption) :
    (Legacy.parseRequest c r opts).2 = none ∧
    (Legacy.parseRequest c r opts).1.query
      = some ((opts.foldl (fun r opt => opt r) r).query.getD []) ∧
    (∃ h, (Legacy.parseRequest c r opts).1.header = some h) ∧
    ((opts.foldl (fun r opt => opt r) r).header = none →
      (Legacy.parseRequest c r opts).1.header
        = some [("Content-Type", ["application/json"])]) ∧
    ((parseRequest fmtFloat unmarshal c r opts).2 = none →
      (parseRequest fmtFloat unmarshal c r opts).1.query
        = some ((opts.foldl (fun r opt => opt r) r).query.getD []) ∧
      (∃ h, (parseRequest fmtFloat unmarshal c r opts).1.header = some h) ∧
      ((opts.foldl (fun r opt => opt r) r).header = none →
        (opts.foldl (fun r opt => opt r) r).secType = .secTypeNone →
        (parseRequest fmtFloat unmarshal c r opts).1.header = some []) ∧
      ((opts.foldl (fun r opt => opt r) r).header = none →
        (opts.foldl (fun r opt => opt r) r).secType = .secTypeSigned →
        ((opts.foldl (fun r opt => opt r) r).method = MethodGet
          ∨ (opts.foldl (fun r opt => opt r) r).method = MethodPost
          ∨ (opts.foldl (fun r opt => opt r) r).method = MethodDelete) →
        carriesSignature c (parseRequest fmtFloat unmarshal c r opts).1.header)) := by
  have hq := (ensureInitialized_more (opts.foldl (fun r opt => opt r) r)).2.2.2
  have hf0 := ensureInitialized_fields (opts.foldl (fun r opt => opt r) r)
  refine ⟨?_, ?_, ?_, ?_, ?_⟩
  · rw [Legacy_parseRequest_eq]
  · rw [Legacy_parseRequest_eq]
    simpa [buildFullURL] using hq
  · rw [Legacy_parseRequest_eq]
    exact ⟨_, rfl⟩
  · intro _
    rw [Legacy_parseRequest_eq]
    simp [buildFullURL]
  · intro hok
    have hp := parseRequest_header fmtFloat unmarshal c r opts
    rw [hp.1] at hok
    have hf := buildHeader_ok_fields fmtFloat unmarshal c _ hok
    refine ⟨?_, ?_, ?_, ?_⟩
    · have : (parseRequest fmtFloat unmarshal c r opts).1.query
          = (buildHeader fmtFloat unmarshal c
              (opts.foldl (fun r opt => opt r) r).ensureInitialized).1.query := by
        unfold parseRequest
        simp only
        generalize buildHeader fmtFloat unmarshal c
          (opts.foldl (fun r opt => opt r) r).ensureInitialized = res
        rcases res with ⟨r2, _ | e⟩ <;> simp [buildFullURL]
      rw [this, hf.1, hq]
    · rw [hp.2]
      exact hf.2
    · intro _ hn
      rw [hp.2, buildHeader_none fmtFloat unmarshal c _ (by rw [hf0.1, hn])]
    · intro _ hs hm
      rw [hp.2]
      exact buildHeader_carries fmtFloat unmarshal c _ (by rw [hf0.1, hs])
        (by rw [hf0.2.1]; exact hm) hok

/-! ## The dispatcher: claim C16 -/

theorem finishCall_status (s : Int) (b : String) :
    (s ≥ 400 →
      finishCall { StatusCode := s, body := .ok b, closeErr := none }
        = .returned none
            (some ("API request failed with status " ++ toString s ++ ": " ++ b))) ∧
    (s < 400 →
      finishCall { StatusCode := s, body := .ok b, closeErr := none }
        = .returned (some (bytesOf b)) none) := by
  constructor
  · intro h
    simp [finishCall, h]
  · intro h
    have : ¬ s ≥ 400 := by omega
    simp [finishCall, this]

/-- C16. When the HTTP client answers the request with status `s` and a body that reads
as the text `b` (and closes without error), `callAPI` hands exactly one request to the HTTP
client, the one built from the parsed descriptor `r1`; for `s` of 400 or more it returns
no data and the error "API request failed with status s: b", for `s` below 400 it returns
the bytes of `b` and no error. This holds in `pkg/api` and in package `api`. -/
theorem callAPI_status_one_call (fmtFloat : Float64 → String)
    (unmarshal : List Nat → Except String params) (http : HttpEnv) (c : Client) (r : request)
    (opts : List RequestOption) (s : Int) (b : String) :
    (∀ r1, parseRequest fmtFloat unmarshal c r opts = (r1, none) →
      http.newRequestErr r1.method r1.fullURL = none →
      http.roundTrip (newHttpRequest r1)
        = .ok { StatusCode := s, body := .ok b, closeErr := none } →
      (s ≥ 400 →
        callAPI fmtFloat unmarshal http c r opts
          = (.returned none
              (some ("API request failed with status " ++ toString s ++ ": " ++ b)),
              [newHttpRequest r1])) ∧
      (s < 400 →
        callAPI fmtFloat unmarshal http c r opts
          = (.returned (some (bytesOf b)) none, [newHttpRequest r1]))) ∧
    (∀ r1, Legacy.parseRequest c r opts = (r1, none) →
      http.newRequestErr r1.method r1.fullURL = none →
      http.roundTrip (newHttpRequest r1)
        = .ok { StatusCode := s, body := .ok b, closeErr := none } →
      (s ≥ 400 →
        Legacy.callAPI http c r opts
          = (.returned none
              (some ("API request failed with status " ++ toString s ++ ": " ++ b)),
              [newHttpRequest r1])) ∧
      (s < 400 →
        Legacy.callAPI http c r opts
          = (.returned (some (bytesOf b)) none, [newHttpRequest r1]))) := by
  have hf := finishCall_status s b
  constructor
  · intro r1 hp hn ht
    have hc : callAPI fmtFloat unmarshal http c r opts
        = (finishCall { StatusCode := s, body := .ok b, closeErr := none },
            [newHttpRequest r1]) := by
      simp only [callAPI, hp, hn, ht]
    exact ⟨fun h => by rw [hc, hf.1 h], fun h => by rw [hc, hf.2 h]⟩
  · intro r1 hp hn ht
    have hc : Legacy.callAPI http c r opts
        = (finishCall { StatusCode := s, body := .ok b, closeErr := none },
            [newHttpRequest r1]) := by
      simp only [Legacy.callAPI, hp, hn, ht]
    exact ⟨fun h => by rw [hc, hf.1 h], fun h => by rw [hc, hf.2 h]⟩

/-- C16, at an instance: the answer 429 with the body `{"error":"rate limited"}` to the
order book depth request, in both packages, and the answer 200 with the body `ok`. -/
theorem callAPI_status_one_call_witness :
    callAPI (fun _ => "") exampleUnmarshal
        (exampleHttp 429 "\x7b\"error\":\"rate limited\"\x7d") exampleClient depthRequest []
      = (.returned none
          (some "API request failed with status 429: \x7b\"error\":\"rate limited\"\x7d"),
          [{ method := "GET", url := "https://satangcorp.com/api/v3/depth",
             header := some [], body := none }]) ∧
    Legacy.callAPI (exampleHttp 429 "\x7b\"error\":\"rate limited\"\x7d") exampleClient
        depthRequest []
      = (.returned none
          (some "API request failed with status 429: \x7b\"error\":\"rate limited\"\x7d"),
          [{ method := "GET", url := "https://satangcorp.com/api/v3/depth",
             header := some [("Content-Type", ["application/json"])], body := none }]) ∧
    callAPI (fun _ => "") exampleUnmarshal (exampleHttp 200 "ok") exampleClient depthRequest []
      = (.returned (some (bytesOf "ok")) none,
          [{ method := "GET", url := "https://satangcorp.com/api/v3/depth",
             header := some [], body := none }]) :=
  ⟨((callAPI_status_one_call (fun _ => "") exampleUnmarshal
      (exampleHttp 429 "\x7b\"error\":\"rate limited\"\x7d") exampleClient depthRequest []
      429 "\x7b\"error\":\"rate limited\"\x7d").1 _ rfl rfl rfl).1 (by decide),
   ((callAPI_status_one_call (fun _ => "") exampleUnmarshal
      (exampleHttp 429 "\x7b\"error\":\"rate limited\"\x7d") exampleClient depthRequest []
      429 "\x7b\"error\":\"rate limited\"\x7d").2 _ rfl rfl rfl).1 (by decide),
   ((callAPI_status_one_call (fun _ => "") exampleUnmarshal
      (exampleHttp 200 "ok") exampleClient depthRequest [] 200 "ok").1 _ rfl rfl rfl).2
      (by decide)⟩

/-! ## Lemmas: the encoded query -/

theorem pair_ne_empty (a b : String) : a ++ "=" ++ b ≠ "" := by
  intro h
  have := congrArg String.length h
  simp only [String.length_append] at this
  have h1 : "=".length = 1 := rfl
  have h0 : "".length = 0 := rfl
  omega

theorem intercalate_eq_empty (l : List String) (hl : ∀ p ∈ l, p ≠ "") :
    "&".intercalate l = "" ↔ l = [] := by
  constructor
  · intro h
    match l, hl with
    | [], _ => rfl
    | [a], hl =>
      rw [intercalate_singleton] at h
      exact absurd h (hl a (List.mem_singleton.mpr rfl))
    | a :: b :: rest, hl =>
      rw [intercalate_cons_cons] at h
      have := congrArg String.length h
      simp only [String.length_append] at this
      have h1 : "&".length = 1 := rfl
      have h0 : "".length = 0 := rfl
      omega
  · intro h
    rw [h]
    rfl

theorem intercalate_snoc (l : List String) (p : String) (hl : l ≠ []) :
    "&".intercalate (l ++ [p]) = "&".intercalate l ++ "&" ++ p := by
  induction l with
  | nil => exact absurd rfl hl
  | cons a l ih =>
    cases l with
    | nil =>
      rw [intercalate_singleton]
      show "&".intercalate [a, p] = a ++ "&" ++ p
      rw [intercalate_cons_cons, intercalate_singleton]
    | cons b rest =>
      have ih2 := ih (by simp)
      show "&".intercalate (a :: (b :: rest ++ [p])) = _
      rw [List.cons_append, intercalate_cons_cons, ← List.cons_append, ih2,
        intercalate_cons_cons]
      simp [String.append_assoc]

theorem encodeValues_eq (keyEscaped : String) :
    ∀ (vs : List String) (l : List String), (∀ p ∈ l, p ≠ "") →
      encodeValues keyEscaped vs ("&".intercalate l)
        = "&".intercalate (l ++ vs.map (fun x => keyEscaped ++ "=" ++ QueryEscape x))
  | [], l, _ => by simp [encodeValues]
  | v :: vs, l, hl => by
    have hstep : (if "&".intercalate l ≠ "" then "&".intercalate l ++ "&"
          else "&".intercalate l) ++ keyEscaped ++ "=" ++ QueryEscape v
        = "&".intercalate (l ++ [keyEscaped ++ "=" ++ QueryEscape v]) := by
      by_cases hn : l = []
      · subst hn
        simp [String.intercalate, String.intercalate.go]
      · have hne : "&".intercalate l ≠ "" := fun h => hn ((intercalate_eq_empty l hl).mp h)
        rw [intercalate_snoc l _ hn]
        simp [hne, String.append_assoc]
    have hl2 : ∀ p ∈ l ++ [keyEscaped ++ "=" ++ QueryEscape v], p ≠ "" := by
      intro p hp
      rcases List.mem_append.mp hp with h | h
      · exact hl p h
      · rw [List.mem_singleton.mp h]
        exact pair_ne_empty _ _
    simp only [encodeValues]
    rw [hstep, encodeValues_eq keyEscaped vs _ hl2]
    simp

theorem encodedPairs_ne_empty (v : Values) (ks : List String) :
    ∀ p ∈ encodedPairs v ks, p ≠ "" := by
  intro p hp
  simp only [encodedPairs, List.mem_flatMap, List.mem_map] at hp
  obtain ⟨k, _, x, _, rfl⟩ := hp
  exact pair_ne_empty _ _

theorem encodeFold_eq (v : Values) :
    ∀ (ks done : List String),
      ks.foldl (fun buf k => encodeValues (QueryEscape k) ((v.lookup k).getD []) buf)
          ("&".intercalate (encodedPairs v done))
        = "&".intercalate (encodedPairs v (done ++ ks))
  | [], done => by simp
  | k :: ks, done => by
    simp only [List.foldl_cons]
    rw [encodeValues_eq _ _ _ (encodedPairs_ne_empty v done)]
    have : encodedPairs v done
          ++ ((v.lookup k).getD []).map (fun x => QueryEscape k ++ "=" ++ QueryEscape x)
        = encodedPairs v (done ++ [k]) := by
      simp [encodedPairs]
    rw [this, encodeFold_eq v ks (done ++ [k])]
    simp

theorem Encode_eq (v : Values) :
    v.Encode = "&".intercalate (encodedPairs v (sortKeys (v.map Prod.fst))) := by
  unfold Values.Encode
  by_cases h : v.length = 0
  · have : v = [] := List.length_eq_zero.mp h
    subst this
    rfl
  · rw [if_neg h]
    have := encodeFold_eq v (sortKeys (v.map Prod.fst)) []
    simpa [encodedPairs] using this

theorem mem_of_lookup {β : Type} (m : List (String × β)) (k : String) (v : β)
    (h : m.lookup k = some v) : (k, v) ∈ m := by
  induction m with
  | nil => simp at h
  | cons a m ih =>
    obtain ⟨ak, av⟩ := a
    simp only [List.lookup] at h
    by_cases hk : k = ak
    · subst hk
      simp at h
      simp [h]
    · have : (k == ak) = false := by simpa using hk
      rw [this] at h
      exact List.mem_cons_of_mem _ (ih h)

theorem Encode_eq_empty_iff (q : Values) (hk : NodupKeys q) :
    q.Encode = "" ↔ ∀ e ∈ q, e.2 = [] := by
  rw [Encode_eq, intercalate_eq_empty _ (encodedPairs_ne_empty q _)]
  constructor
  · intro h e he
    have hmem : e.1 ∈ sortKeys (q.map Prod.fst) :=
      (sortKeys_perm _).symm.subset (List.mem_map_of_mem Prod.fst he)
    have hl := lookup_of_mem q hk e he
    simp only [encodedPairs, List.flatMap_eq_nil_iff, List.map_eq_nil_iff] at h
    have := h e.1 hmem
    simpa [hl] using this
  · intro h
    simp only [encodedPairs, List.flatMap_eq_nil_iff, List.map_eq_nil_iff]
    intro k _
    cases hl : q.lookup k with
    | none => rfl
    | some v => exact h (k, v) (mem_of_lookup q k v hl)

theorem unreservedByte_escape (n : Nat) (h : unreservedByte n = true) :
    utf8EncodeNat n = [n] ∧ queryEscapeByte n = [Char.ofNat n] := by
  simp only [unreservedByte, decide_eq_true_eq] at h
  constructor
  · have : n < 0x80 := by omega
    simp [utf8EncodeNat, this]
  · simp [queryEscapeByte, h]

theorem QueryEscape_unreserved (s : String) (h : isUnreserved s = true) : QueryEscape s = s := by
  have key : ∀ cs : List Char, cs.all (fun c => unreservedByte c.toNat) = true →
      (cs.flatMap (fun c => utf8EncodeNat c.toNat)).flatMap queryEscapeByte = cs := by
    intro cs
    induction cs with
    | nil => intro _; rfl
    | cons c cs ih =>
      intro hc
      simp only [List.all_cons, Bool.and_eq_true] at hc
      have hb := unreservedByte_escape c.toNat hc.1
      simp only [List.flatMap_cons, List.flatMap_append, hb.1, List.flatMap_nil, List.append_nil,
        hb.2, ih hc.2, Char.ofNat_toNat, List.singleton_append]
  unfold QueryEscape bytesOf
  rw [key s.data h]

theorem toDigitsCore_unreserved : ∀ (fuel n : Nat) (ds : List Char),
    ds.all (fun c => unreservedByte c.toNat) = true →
    (Nat.toDigitsCore 10 fuel n ds).all (fun c => unreservedByte c.toNat) = true
  | 0, n, ds, h => by simpa [Nat.toDigitsCore] using h
  | fuel + 1, n, ds, h => by
    have hd : ∀ m, m < 10 → unreservedByte (Nat.digitChar m).toNat = true := by decide
    have hd' := hd (n % 10) (Nat.mod_lt _ (by decide))
    have h2 : (Nat.digitChar (n % 10) :: ds).all (fun c => unreservedByte c.toNat) = true := by
      simp only [List.all_cons, Bool.and_eq_true]
      exact ⟨hd', h⟩
    simp only [Nat.toDigitsCore]
    split
    · exact h2
    · exact toDigitsCore_unreserved fuel _ _ h2

theorem toString_nat_unreserved (n : Nat) : isUnreserved (toString n) = true := by
  show (Nat.toDigitsCore 10 (n + 1) n []).all (fun c => unreservedByte c.toNat) = true
  exact toDigitsCore_unreserved _ _ _ rfl

theorem toString_int_unreserved (i : Int) : isUnreserved (toString i) = true := by
  cases i with
  | ofNat n => exact toString_nat_unreserved n
  | negSucc n =>
    show isUnreserved ("-" ++ toString (n + 1)) = true
    have := toString_nat_unreserved (n + 1)
    simp only [isUnreserved, String.data_append, List.all_append, Bool.and_eq_true] at this ⊢
    exact ⟨by decide, this⟩

theorem plainText_unreserved (v : Value) (h : isPlainScalar v = true) :
    isUnreserved (plainText v) = true := by
  match v, h with
  | .leaf (.str s), h => exact h
  | .leaf (.int i), _ => exact toString_int_unreserved i

theorem sprintV_plain (fmtOther : Value → String) (v : Value) (h : isPlainScalar v = true) :
    sprintV fmtOther v = plainText v := by
  match v, h with
  | .leaf (.str s), _ => rfl
  | .leaf (.int i), _ => rfl

theorem setQueryParam_plain (fmtOther : Value → String)
    (marshal : List Value → Except String String) (r : request) (key : String) (v : Value)
    (h : isPlainScalar v = true) :
    (r.setQueryParam fmtOther marshal key v).1
      = { r with query := some (Values.Set (r.query.getD []) key (plainText v)) } := by
  match v, h with
  | .leaf (.str s), _ => rfl
  | .leaf (.int i), _ => rfl

theorem mapSet_fresh {β : Type} (m : List (String × β)) (k : String) (v : β)
    (h : k ∉ m.map Prod.fst) : mapSet m k v = m ++ [(k, v)] := by
  induction m with
  | nil => rfl
  | cons a m ih =>
    obtain ⟨ak, av⟩ := a
    simp only [List.map_cons, List.mem_cons, not_or] at h
    have hne : ¬ ak = k := fun e => h.1 e.symm
    simp [mapSet, hne, ih h.2]

theorem setQueryParams_plain (fmtOther : Value → String)
    (marshal : List Value → Except String String) :
    ∀ (m : params) (r : request), NodupKeys m → (∀ e ∈ m, isPlainScalar e.2 = true) →
      (∀ e ∈ m, e.1 ∉ (r.query.getD []).map Prod.fst) →
      (r.setQueryParams fmtOther marshal m).query.getD []
          = r.query.getD [] ++ m.map (fun e => (e.1, [plainText e.2])) ∧
      (r.setQueryParams fmtOther marshal m).endpoint = r.endpoint
  | [], r, _, _, _ => by simp [request.setQueryParams]
  | e :: m, r, hk, hv, hf => by
    have hk2 : e.1 ∉ m.map Prod.fst ∧ NodupKeys m := by
      simpa [NodupKeys] using hk
    have he := setQueryParam_plain fmtOther marshal r e.1 e.2 (hv e (List.mem_cons_self _ _))
    have hfresh := mapSet_fresh (r.query.getD []) e.1 [plainText e.2]
      (hf e (List.mem_cons_self _ _))
    have ih := setQueryParams_plain fmtOther marshal m
      { r with query := some (Values.Set (r.query.getD []) e.1 (plainText e.2)) } hk2.2
      (fun x hx => hv x (List.mem_cons_of_mem _ hx))
      (by
        intro x hx
        simp only [Option.getD_some, Values.Set, hfresh, List.map_append, List.map_cons,
          List.map_nil, List.mem_append, List.mem_singleton, not_or]
        refine ⟨hf x (List.mem_cons_of_mem _ hx), ?_⟩
        intro hxe
        exact hk2.1 (hxe ▸ List.mem_map_of_mem Prod.fst hx))
    have hstep : request.setQueryParams fmtOther marshal r (e :: m)
        = request.setQueryParams fmtOther marshal
            { r with query := some (Values.Set (r.query.getD []) e.1 (plainText e.2)) } m := by
      simp only [request.setQueryParams, List.foldl_cons, he]
    rw [hstep]
    refine ⟨?_, ih.2⟩
    rw [ih.1]
    simp [Values.Set, hfresh]

theorem flatMap_singleton_eq_map {α β : Type} (l : List α) (f : α → List β) (g : α → β)
    (h : ∀ a ∈ l, f a = [g a]) : l.flatMap f = l.map g := by
  induction l with
  | nil => rfl
  | cons a l ih =>
    simp only [List.flatMap_cons, List.map_cons]
    rw [h a (List.mem_cons_self _ _), ih (fun x hx => h x (List.mem_cons_of_mem _ hx))]
    rfl

theorem appendKeyValue_plain (fmtFloat : Float64 → String) (k : String) (v : Value)
    (h : isPlainScalar v = true) :
    appendKeyValue fmtFloat "" k v = k ++ "=" ++ plainText v := by
  match v, h with
  | .leaf (.str s), _ => simp [appendKeyValue, writeKeyValue, leafText, plainText]
  | .leaf (.int i), _ => simp [appendKeyValue, writeKeyValue, leafText, plainText]

theorem Encode_plain_eq_queryString (fmtFloat : Float64 → String) (m : params)
    (hk : NodupKeys m)
    (hv : ∀ e ∈ m, isUnreserved e.1 = true ∧ isPlainScalar e.2 = true) :
    Values.Encode (m.map (fun e => (e.1, [plainText e.2]))) = queryString fmtFloat m := by
  have hkeys : (m.map (fun e => (e.1, [plainText e.2]))).map Prod.fst = m.map Prod.fst := by
    rw [List.map_map]
    rfl
  have hk2 : NodupKeys (m.map (fun e => (e.1, [plainText e.2]))) := by
    unfold NodupKeys
    rw [hkeys]
    exact hk
  rw [Encode_eq, queryString_eq, hkeys]
  congr 1
  unfold encodedPairs
  apply flatMap_singleton_eq_map
  intro k hkm
  have hk3 : k ∈ m.map Prod.fst := (sortKeys_perm _).subset hkm
  obtain ⟨e, he, rfl⟩ := List.mem_map.mp hk3
  have hl1 := lookup_of_mem _ hk2 (e.1, [plainText e.2])
    (List.mem_map_of_mem (fun e : String × Value => (e.1, [plainText e.2])) he)
  have hl2 : m.get e.1 = e.2 := by simp [params.get, lookup_of_mem m hk e he]
  simp only at hl1
  rw [hl1, hl2, appendKeyValue_plain fmtFloat e.1 e.2 (hv e he).2]
  simp only [Option.getD_some, List.map_cons, List.map_nil]
  rw [QueryEscape_unreserved e.1 (hv e he).1,
    QueryEscape_unreserved _ (plainText_unreserved e.2 (hv e he).2)]

/-! ## The full URL: claims C13 and C14 -/

/-- C14, as stated: for the set with the string slice `["x", "y"]` under `a` the query
part of the URL is `a=x&a=y` and the canonical string is `a=[x y]`; for the set with the
string `a b` under `k` the query part is `k=a+b` and the canonical string is `k=a b`. -/
theorem fullURL_query_differs_from_queryString :
    (buildFullURL testClient
      (depthRequest.setQueryParams (fun _ => "") (fun _ => .ok "")
        [("a", .leaf (.strs ["x", "y"]))])).fullURL
      = "https://example.test/api/v3/depth?a=x&a=y" ∧
    queryString (fun _ => "") [("a", .leaf (.strs ["x", "y"]))] = "a=[x y]" ∧
    (buildFullURL testClient
      (depthRequest.setQueryParams (fun _ => "") (fun _ => .ok "")
        [("k", .str "a b")])).fullURL
      = "https://example.test/api/v3/depth?k=a+b" ∧
    queryString (fun _ => "") [("k", .str "a b")] = "k=a b" :=
  ⟨rfl, rfl, rfl, rfl⟩

/-- C14, amended. For a parameter set with distinct keys whose keys consist of letters,
digits and `-_.~` and whose values are integers or strings of such characters, placed by
`setQueryParams` on a descriptor without query values, the encoded query that
`buildFullURL` appends equals the canonical string `queryString` of the set: the full URL
is base URL, path, `?` and that string (base URL and path alone for the empty set). -/
theorem fullURL_query_eq_queryString_plain (fmtFloat : Float64 → String)
    (fmtOther : Value → String) (marshal : List Value → Except String String) (c : Client)
    (r : request) (m : params) (hr : r.query.getD [] = []) (hk : NodupKeys m)
    (hv : ∀ e ∈ m, isUnreserved e.1 = true ∧ isPlainScalar e.2 = true) :
    ((r.setQueryParams fmtOther marshal m).query.getD []).Encode = queryString fmtFloat m ∧
    (m ≠ [] →
      (buildFullURL c (r.setQueryParams fmtOther marshal m)).fullURL
        = c.BaseURL ++ r.endpoint ++ "?" ++ queryString fmtFloat m) ∧
    (m = [] →
      (buildFullURL c (r.setQueryParams fmtOther marshal m)).fullURL
        = c.BaseURL ++ r.endpoint) := by
  have hs := setQueryParams_plain fmtOther marshal m r hk (fun e he => (hv e he).2)
    (by intro e _; rw [hr]; simp)
  have hq : (r.setQueryParams fmtOther marshal m).query.getD []
      = m.map (fun e => (e.1, [plainText e.2])) := by
    rw [hs.1, hr]
    rfl
  have henc : ((r.setQueryParams fmtOther marshal m).query.getD []).Encode
      = queryString fmtFloat m := by
    rw [hq]
    exact Encode_plain_eq_queryString fmtFloat m hk hv
  have hurl : (buildFullURL c (r.setQueryParams fmtOther marshal m)).fullURL
      = if queryString fmtFloat m ≠ "" then c.BaseURL ++ r.endpoint ++ "?" ++ queryString fmtFloat m
        else c.BaseURL ++ r.endpoint := by
    simp only [buildFullURL, henc, hs.2, String.empty_append]
  refine ⟨henc, ?_, ?_⟩
  · intro hne
    have hk2 : NodupKeys (m.map (fun e : String × Value => (e.1, [plainText e.2]))) := by
      unfold NodupKeys
      rw [List.map_map]
      exact hk
    have : queryString fmtFloat m ≠ "" := by
      rw [← Encode_plain_eq_queryString fmtFloat m hk hv]
      intro he
      have hall := (Encode_eq_empty_iff _ hk2).mp he
      obtain ⟨e, rest, rfl⟩ := List.exists_cons_of_ne_nil hne
      have := hall (e.1, [plainText e.2]) (by simp)
      simp at this
    rw [hurl, if_pos this]
  · intro he
    subst he
    rw [hurl]
    rfl

/-- C14, amended, at an instance: the set with `symbol` = USDT_THB and `limit` = 5. -/
theorem fullURL_query_eq_queryString_plain_witness :
    (buildFullURL testClient
      (depthRequest.setQueryParams (fun _ => "") (fun _ => .ok "")
        [("symbol", Value.str "USDT_THB"), ("limit", Value.int 5)])).fullURL
      = testClient.BaseURL ++ depthRequest.endpoint ++ "?"
        ++ queryString (fun _ => "") [("symbol", Value.str "USDT_THB"), ("limit", Value.int 5)] :=
  (fullURL_query_eq_queryString_plain (fun _ => "") (fun _ => "") (fun _ => .ok "")
    testClient depthRequest [("symbol", .str "USDT_THB"), ("limit", .int 5)] rfl
    (by decide) (by decide)).2.1 (by simp)

end Orbix
